import Mathlib

/-
  Verification development for the Algorithm-Visualizer repository.

  The repository animates two textbook algorithms:
  - breadth-first search over a rectangular grid (class BFSVisualizer together
    with class Grid from graph.js), used for shortest-path discovery, and
  - depth-first search over a directed graph (class DFSVisualizer together with
    classes Graph and GraphNode from graph.js), used for cycle detection.

  The definitions below are a shallow embedding of the algorithmic core of that
  code: every mutable per-cell / per-node field of the JavaScript objects
  becomes a field of an explicit state record, the animation delays are
  dropped (they do not change state), and the unbounded while loops and the
  recursion of dfsVisit are given an explicit fuel argument; theorems establish
  that the fuel chosen by the top-level entry points is always sufficient.
-/

set_option maxRecDepth 4000

/-- Pointwise update of a function, mirroring one JavaScript field assignment
on the object identified by the key. -/
def upd {α : Type} [DecidableEq α] {β : Type} (f : α → β) (a : α) (b : β) : α → β :=
  fun x => if x = a then b else f x

/-! ## The grid and breadth-first search (BFSVisualizer.runBFS) -/

/-- A grid cell identified by its (col, row) coordinates, as in
Grid.initializeGrid where cells carry col and row fields. -/
abbrev Cell := Nat × Nat

/-- The type field of a grid cell: empty, wall, start or goal
(graph.js line 285). -/
inductive CellT
  | empty | wall | start | goal
  deriving DecidableEq

/-- The state field of a grid cell: unvisited, frontier, visited or path
(graph.js line 286). -/
inductive VState
  | unvisited | frontier | visited | path
  deriving DecidableEq

/-- The static data runBFS reads from the Grid: the dimensions, which cells are
walls (cell.type === 'wall'), and the start and goal cell references.
A cell of type start or goal is never a wall, which the theorems record as the
hypothesis GValid. -/
structure GridCfg where
  cols : Nat
  rows : Nat
  wall : Cell → Bool
  startC : Cell
  goalC : Cell

/-- The four direction offsets of Grid.getNeighbors (graph.js line 388),
in source order: left, right, up, down. -/
def dirs : List (Int × Int) := [(-1, 0), (1, 0), (0, -1), (0, 1)]

/-- Grid.getNeighbors (graph.js lines 386-403): the up-to-four orthogonal
neighbors that are inside the grid (Grid.isValidCell) and are not walls. -/
def getNeighbors (g : GridCfg) (c : Cell) : List Cell :=
  dirs.filterMap fun d =>
    let nc : Int := (c.1 : Int) + d.1
    let nr : Int := (c.2 : Int) + d.2
    if 0 ≤ nc ∧ nc < (g.cols : Int) ∧ 0 ≤ nr ∧ nr < (g.rows : Int) then
      let nb : Cell := (nc.toNat, nr.toNat)
      if g.wall nb then none else some nb
    else none

/-- The mutable state of a BFS run: the local queue and visited set of runBFS,
the per-cell distance, parent and state fields, and the two statistics
counters of the visualizer. distance = Infinity is modelled as none,
parent = null as none. -/
structure BfsState where
  queue : List Cell
  visitedSet : List Cell
  dist : Cell → Option Nat
  par : Cell → Option Cell
  vstate : Cell → VState
  visitedCount : Nat
  pathLength : Nat

/-- The parent walk of BFSVisualizer.reconstructPath (lines 165-175): unshift
the current cell and step to its parent until the parent is null. The fuel
argument bounds the walk; every caller passes fuel at least the length of the
actual parent chain, so the bound is never hit (see the parentChain lemmas). -/
def parentChain (par : Cell → Option Cell) : Nat → Cell → List Cell
  | 0, c => [c]
  | fuel + 1, c =>
    match par c with
    | none => [c]
    | some p => parentChain par fuel p ++ [c]

/-- BFSVisualizer.reconstructPath applied to a run state; the visited set is
always at least as long as the parent chain being rebuilt. -/
def reconstructPath (s : BfsState) (c : Cell) : List Cell :=
  parentChain s.par s.visitedSet.length c

/-- One neighbor inspection of the BFS inner loop (lines 138-146): a neighbor
not yet in the visited set is added to it, given a parent, a distance one more
than the current cell, the frontier state, and a place at the end of the
queue. -/
def discoverStep (cur : Cell) (t : BfsState) (nb : Cell) : BfsState :=
  if nb ∈ t.visitedSet then t
  else
    { t with
      visitedSet := nb :: t.visitedSet
      par := upd t.par nb (some cur)
      dist := upd t.dist nb ((t.dist cur).map (· + 1))
      vstate := upd t.vstate nb VState.frontier
      queue := t.queue ++ [nb] }

/-- The while loop of BFSVisualizer.runBFS (lines 120-157). The loop guard
reads only the queue length and the isPaused flag; the paused argument models
the value of this.isPaused during the run (false for an uninterrupted run, and
false again after reset() since reset clears the flag). Each iteration
dequeues the first cell, marks it visited, counts it, returns success when it
is the goal, and otherwise discovers its neighbors. The fuel argument bounds
the iteration count; bfsFuel below is proven sufficient. -/
def bfsLoop (g : GridCfg) (paused : Bool) : Nat → BfsState → Option (Bool × List Cell × BfsState)
  | 0, _ => none
  | fuel + 1, s =>
    match s.queue with
    | [] => some (false, [], s)
    | cur :: rest =>
      if paused then some (false, [], s)
      else
        let s1 : BfsState :=
          { s with
            queue := rest
            vstate := upd s.vstate cur VState.visited
            visitedCount := s.visitedCount + 1 }
        if cur = g.goalC then
          let p := reconstructPath s1 cur
          some (true, p, { s1 with pathLength := p.length - 1 })
        else
          bfsLoop g paused fuel ((getNeighbors g cur).foldl (discoverStep cur) s1)

/-- The state right after lines 113-118 of runBFS (and grid.reset() before
them): the start cell alone is discovered, queued, at distance 0, in the
frontier state; every other field is reset. -/
def initState (g : GridCfg) : BfsState :=
  { queue := [g.startC]
    visitedSet := [g.startC]
    dist := upd (fun _ => none) g.startC (some 0)
    par := fun _ => none
    vstate := upd (fun _ => VState.unvisited) g.startC VState.frontier
    visitedCount := 0
    pathLength := 0 }

/-- Fuel sufficient for the BFS loop: each iteration dequeues one cell and
each cell is enqueued at most once, so 2 * cols * rows + 2 iterations always
suffice (proven in the loop lemmas). -/
def bfsFuel (g : GridCfg) : Nat := 2 * g.cols * g.rows + 2

/-- BFSVisualizer.runBFS for an uninterrupted run (isPaused stays false). -/
def runBFS (g : GridCfg) : Option (Bool × List Cell × BfsState) :=
  bfsLoop g false (bfsFuel g) (initState g)

/-! ## Specification-side notions for BFS -/

/-- Adjacency as the algorithm sees it: b is one of the non-wall in-bounds
orthogonal neighbors of a. -/
def Adj (g : GridCfg) (a b : Cell) : Prop := b ∈ getNeighbors g a

/-- pathLen g n a b holds when there is a walk of exactly n hops from a to b,
each hop moving to a non-wall in-bounds orthogonal neighbor. -/
def pathLen (g : GridCfg) : Nat → Cell → Cell → Prop
  | 0, a, b => a = b
  | n + 1, a, b => ∃ c, pathLen g n a c ∧ Adj g c b

/-- b is reachable from a through non-wall cells. -/
def Reachable (g : GridCfg) (a b : Cell) : Prop := ∃ n, pathLen g n a b

/-- The standing validity facts about a Grid: the start reference is an
in-bounds cell and its type is 'start', hence not 'wall'. -/
def GValid (g : GridCfg) : Prop :=
  g.startC.1 < g.cols ∧ g.startC.2 < g.rows ∧ g.wall g.startC = false

instance (g : GridCfg) (a b : Cell) : Decidable (Adj g a b) := by
  unfold Adj; infer_instance

instance (g : GridCfg) : Decidable (GValid g) := by
  unfold GValid; infer_instance

/-! ## The mutable Grid editing operations (graph.js) -/

/-- The mutable part of class Grid that setStart, setGoal and toggleWall
touch: the per-cell type field and the start and goal references (null
modelled as none). Coordinates arrive as arbitrary integers, as in the
JavaScript where any number can be passed. -/
structure GridS where
  cols : Nat
  rows : Nat
  typ : Cell → CellT
  startRef : Option Cell
  goalRef : Option Cell

/-- Grid.isValidCell (graph.js lines 377-379) on integer coordinates. -/
def isValidCellI (g : GridS) (col row : Int) : Prop :=
  0 ≤ col ∧ col < (g.cols : Int) ∧ 0 ≤ row ∧ row < (g.rows : Int)

instance (g : GridS) (col row : Int) : Decidable (isValidCellI g col row) := by
  unfold isValidCellI; infer_instance

/-- Grid.setStart (graph.js lines 305-313): first demote the current start
cell to empty, then, only if the coordinates are valid, move the start
reference and stamp the new cell. -/
def setStart (g : GridS) (col row : Int) : GridS :=
  let g1 : GridS :=
    match g.startRef with
    | some s => { g with typ := upd g.typ s CellT.empty }
    | none => g
  if isValidCellI g col row then
    let c : Cell := (col.toNat, row.toNat)
    { g1 with startRef := some c, typ := upd g1.typ c CellT.start }
  else g1

/-- Grid.setGoal (graph.js lines 320-328), symmetric to setStart. -/
def setGoal (g : GridS) (col row : Int) : GridS :=
  let g1 : GridS :=
    match g.goalRef with
    | some s => { g with typ := upd g.typ s CellT.empty }
    | none => g
  if isValidCellI g col row then
    let c : Cell := (col.toNat, row.toNat)
    { g1 with goalRef := some c, typ := upd g1.typ c CellT.goal }
  else g1

/-- Grid.toggleWall (graph.js lines 335-344): on a valid cell, empty and wall
swap; start and goal cells and invalid coordinates are untouched. -/
def toggleWall (g : GridS) (col row : Int) : GridS :=
  if isValidCellI g col row then
    let c : Cell := (col.toNat, row.toNat)
    if g.typ c = CellT.empty then { g with typ := upd g.typ c CellT.wall }
    else if g.typ c = CellT.wall then { g with typ := upd g.typ c CellT.empty }
    else g
  else g

/-! ## The directed graph and depth-first search (DFSVisualizer) -/

/-- The state field of a graph node: unvisited, visiting, visited or cycle
(graph.js line 16). -/
inductive NState
  | unvisited | visiting | visited | cycle
  deriving DecidableEq

/-- The static structure of the directed Graph that runDFS reads: the node
identities in Map insertion order (Graph.getAllNodes) and, for each node, the
identities of its edge targets in neighbor-Map insertion order. -/
structure DGraph where
  nodeIds : List Nat
  adj : Nat → List Nat

/-- The mutable state of a DFS run: the per-node state, parent, discoveryTime
and finishTime fields (the -1 / null sentinels modelled as none), the time
counter, the statistics counters, the recorded cycles list, the per-edge
cycle flag, and backLog, an observation log holding one (from, to) pair per
back edge the run detected (an edge whose target was in the visiting state
when examined); backLog records when the cycle-detected branch fired and is
written nowhere else. -/
structure DfsState where
  nstate : Nat → NState
  par : Nat → Option Nat
  disc : Nat → Option Nat
  fin : Nat → Option Nat
  time : Nat
  visitedCount : Nat
  cycleCount : Nat
  cycles : List (List Nat)
  cycEdge : Nat → Nat → Bool
  backLog : List (Nat × Nat)

/-- The parent walk inside DFSVisualizer.findCycleNodes (lines 605-616): from
cur, collect nodes and follow parents until toN (exclusive) or a null parent.
The fuel bounds the walk and is never hit by callers (the chain is a list of
distinct stacked nodes). -/
def parChainTo (par : Nat → Option Nat) : Nat → Nat → Nat → List Nat
  | 0, _, _ => []
  | fuel + 1, cur, toN =>
    if cur = toN then []
    else
      cur ::
        match par cur with
        | none => []
        | some p => parChainTo par fuel p toN

/-- DFSVisualizer.findCycleNodes: the JavaScript builds the list by
unshifting, so the collected walk appears reversed, followed by toN. -/
def findCycleNodes (g : DGraph) (par : Nat → Option Nat) (fromN toN : Nat) : List Nat :=
  (parChainTo par (g.nodeIds.length + 1) fromN toN).reverse ++ [toN]

/-- The edge-marking loop at the end of DFSVisualizer.highlightCycle
(lines 586-594): each consecutive pair of cycle nodes, wrapping around, has
its edge flagged when the edge exists; the loop writes only edge states. -/
def markCycleEdges (g : DGraph) (s : DfsState) (cyc : List Nat) : DfsState :=
  { s with
    cycEdge :=
      (List.range cyc.length).foldl
        (fun e i =>
          let a := cyc.getD i 0
          let b := cyc.getD ((i + 1) % cyc.length) 0
          if b ∈ g.adj a then (fun x y => if x = a ∧ y = b then true else e x y) else e)
        s.cycEdge }

/-- DFSVisualizer.highlightCycle (lines 567-597): flag the back edge, compute
the cycle node list, push it onto cycles, mark every cycle node with the
cycle state, and flag the consecutive cycle edges. -/
def highlightCycle (g : DGraph) (s : DfsState) (fromN toN : Nat) : DfsState :=
  let s1 : DfsState :=
    { s with
      cycEdge :=
        if toN ∈ g.adj fromN then
          (fun x y => if x = fromN ∧ y = toN then true else s.cycEdge x y)
        else s.cycEdge }
  let cyc := findCycleNodes g s1.par fromN toN
  let s2 : DfsState := { s1 with cycles := s1.cycles ++ [cyc] }
  let s3 : DfsState := { s2 with nstate := fun v => if v ∈ cyc then NState.cycle else s2.nstate v }
  markCycleEdges g s3 cyc

/-- Entry of DFSVisualizer.dfsVisit (lines 523-526): mark the node visiting,
stamp its discovery time with the incremented counter, and count it. -/
def stampDiscover (s : DfsState) (n : Nat) : DfsState :=
  { s with
    nstate := upd s.nstate n NState.visiting
    disc := upd s.disc n (some (s.time + 1))
    time := s.time + 1
    visitedCount := s.visitedCount + 1 }

/-- Exit of DFSVisualizer.dfsVisit (lines 554-556): mark the node visited and
stamp its finish time with the incremented counter. -/
def stampFinish (s : DfsState) (n : Nat) : DfsState :=
  { s with
    nstate := upd s.nstate n NState.visited
    fin := upd s.fin n (some (s.time + 1))
    time := s.time + 1 }

/-- The parent assignment neighbor.parent = node just before the recursive
call (line 537). -/
def setPar (s : DfsState) (m n : Nat) : DfsState := { s with par := upd s.par m (some n) }

/-- The neighbor loop of dfsVisit (lines 533-552) for current node n: an
unvisited target gets a parent and a recursive visit; a visiting target is a
back edge, handled by highlightCycle, counted, and logged in backLog; any
other target (visited, or already re-marked cycle) is skipped. The visit
argument is the recursive dfsVisit at one less fuel. -/
def dfsNbrs (g : DGraph) (visit : DfsState → Nat → DfsState) (n : Nat) :
    DfsState → List Nat → DfsState
  | s, [] => s
  | s, m :: ms =>
    let t :=
      if s.nstate m = NState.unvisited then visit (setPar s m n) m
      else if s.nstate m = NState.visiting then
        let t1 := highlightCycle g s n m
        { t1 with cycleCount := t1.cycleCount + 1, backLog := t1.backLog ++ [(n, m)] }
      else s
    dfsNbrs g visit n t ms

/-- DFSVisualizer.dfsVisit (lines 522-560) with explicit recursion fuel; the
fuel decreases at each nested visit and dfsFuel is proven sufficient (each
nested visit consumes one unvisited node). -/
def dfsVisit (g : DGraph) : Nat → DfsState → Nat → DfsState
  | 0 => fun s _ => s
  | fuel + 1 => fun s n =>
    stampFinish (dfsNbrs g (dfsVisit g fuel) n (stampDiscover s n) (g.adj n)) n

/-- The state right after Graph.reset and lines 480-484 of startDFS: every
per-node field cleared, counters zeroed, no cycles. -/
def initDfs : DfsState :=
  { nstate := fun _ => NState.unvisited
    par := fun _ => none
    disc := fun _ => none
    fin := fun _ => none
    time := 0
    visitedCount := 0
    cycleCount := 0
    cycles := []
    cycEdge := fun _ _ => false
    backLog := [] }

/-- Fuel for dfsVisit: one more than the node count. -/
def dfsFuel (g : DGraph) : Nat := g.nodeIds.length + 1

/-- DFSVisualizer.runDFS (lines 502-516) for an uninterrupted run: visit every
still-unvisited node in getAllNodes order. -/
def runDFS (g : DGraph) : DfsState :=
  g.nodeIds.foldl
    (fun s n => if s.nstate n = NState.unvisited then dfsVisit g (dfsFuel g) s n else s)
    initDfs

/-! ## Specification-side notions for DFS -/

/-- The edge relation of the directed graph. -/
def EdgeStep (g : DGraph) (a b : Nat) : Prop := b ∈ g.adj a

/-- A nonempty closed walk: consecutive nodes are joined by graph edges and
an edge closes the walk from the last node back to the first. -/
def ClosedWalk (g : DGraph) (l : List Nat) : Prop :=
  List.Chain' (EdgeStep g) l ∧
    ∃ h t, l.head? = some h ∧ l.getLast? = some t ∧ EdgeStep g t h

/-- The graph has no directed cycle. -/
def Acyclic (g : DGraph) : Prop := ∀ v, ¬ Relation.TransGen (EdgeStep g) v v

/-- Structural well-formedness the JavaScript Graph maintains: node ids are
unique (they are successive integers from addNode) and every edge target is a
node of the graph (addEdge requires both endpoints, removeNode strips
incoming edges). -/
def Gwf (g : DGraph) : Prop :=
  g.nodeIds.Nodup ∧ ∀ n ∈ g.nodeIds, ∀ m ∈ g.adj n, m ∈ g.nodeIds

instance (g : DGraph) : Decidable (Gwf g) := by
  unfold Gwf; infer_instance

/-- A node currently on the recursion stack of the traversal: its state is
visiting, or cycle after a back edge re-marked it. -/
def Stacked (s : DfsState) (v : Nat) : Prop :=
  s.nstate v = NState.visiting ∨ s.nstate v = NState.cycle

/-- The parent chain above node n lists exactly the stack of open visits, each
parent link being a tree edge of the traversal. -/
def StackFrom (g : DGraph) (s : DfsState) : Nat → List Nat → Prop
  | n, [] => s.par n = none
  | n, p :: rest => s.par n = some p ∧ n ∈ g.adj p ∧ StackFrom g s p rest

/-- The number of unvisited graph nodes, the termination measure of the
traversal. -/
def U (g : DGraph) (s : DfsState) : Nat :=
  (g.nodeIds.filter fun v => s.nstate v = NState.unvisited).length

/-- Every discovery and finish timestamp the run has assigned to the nodes of
the graph, in node order. -/
def allStamps (g : DGraph) (s : DfsState) : List Nat :=
  g.nodeIds.filterMap s.disc ++ g.nodeIds.filterMap s.fin

/-! ## The run-control flags (pause and reset) -/

/-- The two control flags of each visualizer object. -/
structure Flags where
  isRunning : Bool
  isPaused : Bool

/-- BFSVisualizer.reset (lines 208-217) as it acts on the flags: isRunning and
isPaused are both set to false, whatever they were. -/
def resetFlags (_f : Flags) : Flags := { isRunning := false, isPaused := false }

/-- The guard of the runBFS while loop (line 120): it reads the queue length
and isPaused, and nothing else; in particular it does not read isRunning. -/
def bfsGuard (queueLen : Nat) (f : Flags) : Bool :=
  decide (0 < queueLen) && !f.isPaused

/-! ## Concrete instances used by the claims -/

/-- The 5 by 5 empty grid of the concrete spec scenario: start (1,1),
goal (3,3), no walls. -/
def g6 : GridCfg :=
  { cols := 5, rows := 5, wall := fun _ => false, startC := (1, 1), goalC := (3, 3) }

/-- A 4 by 4 grid state as initializeGrid leaves it: start (1,1),
goal (2,2), everything else empty. -/
def grid7 : GridS :=
  { cols := 4
    rows := 4
    typ := fun c => if c = (1, 1) then CellT.start else if c = (2, 2) then CellT.goal else CellT.empty
    startRef := some (1, 1)
    goalRef := some (2, 2) }

/-- A 3 by 3 grid whose start (0,0) is walled in by (1,0) and (0,1); the
goal (2,2) is unreachable. -/
def g4 : GridCfg :=
  { cols := 3
    rows := 3
    wall := fun c => c = (1, 0) ∨ c = (0, 1)
    startC := (0, 0)
    goalC := (2, 2) }

/-- Two nodes; node 0 has an edge to node 1 and a self-loop, node 1 points
back to node 0. During the visit of 0 the back edge 1 to 0 is found first and
re-marks node 0 with the cycle state, so the later self-loop of 0 is not in
the visiting state and is skipped. -/
def gC9 : DGraph :=
  { nodeIds := [0, 1]
    adj := fun n => if n = 0 then [1, 0] else if n = 1 then [0] else [] }

/-- A single node with a self-loop. -/
def gSelf : DGraph :=
  { nodeIds := [0], adj := fun n => if n = 0 then [0] else [] }

/-- The three-node directed cycle 0 to 1 to 2 to 0. -/
def gTri : DGraph :=
  { nodeIds := [0, 1, 2]
    adj := fun n => if n = 0 then [1] else if n = 1 then [2] else if n = 2 then [0] else [] }

/-- An acyclic graph: 0 to 1, 0 to 2, 1 to 2. -/
def gAcy : DGraph :=
  { nodeIds := [0, 1, 2]
    adj := fun n => if n = 0 then [1, 2] else if n = 1 then [2] else [] }

/-! ## Invariant structures -/

/-- The clauses of the BFS invariant that survive the early return on the
goal: together they describe the visited set and the distance, parent and
state fields of every cell. -/
structure CoreInv (g : GridCfg) (s : BfsState) : Prop where
  startMem : g.startC ∈ s.visitedSet
  vNodup : s.visitedSet.Nodup
  vBounds : ∀ c ∈ s.visitedSet, c.1 < g.cols ∧ c.2 < g.rows ∧ g.wall c = false
  qSub : ∀ c ∈ s.queue, c ∈ s.visitedSet
  qNodup : s.queue.Nodup
  distLeast : ∀ c ∈ s.visitedSet, ∃ d, s.dist c = some d ∧ pathLen g d g.startC c ∧
    ∀ m, pathLen g m g.startC c → d ≤ m
  distNone : ∀ c, c ∉ s.visitedSet → s.dist c = none ∧ s.par c = none
  parStart : s.par g.startC = none ∧ s.dist g.startC = some 0
  parLink : ∀ c ∈ s.visitedSet, c ≠ g.startC →
    ∃ p dp, s.par c = some p ∧ p ∈ s.visitedSet ∧ Adj g p c ∧
      s.dist p = some dp ∧ s.dist c = some (dp + 1)
  vchar : ∀ c, s.vstate c =
    if c ∈ s.visitedSet then
      (if c ∈ s.queue then VState.frontier else VState.visited)
    else VState.unvisited

/-- The full loop invariant: additionally the queue splits into two blocks of
consecutive distances, dequeued cells have all neighbors discovered, and the
goal is never dequeued without the loop returning. -/
structure LoopInv (g : GridCfg) (s : BfsState) extends CoreInv g s : Prop where
  qBlocks : ∃ d lA lB, s.queue = lA ++ lB ∧ (∀ c ∈ lA, s.dist c = some d) ∧
    (∀ c ∈ lB, s.dist c = some (d + 1))
  closedSet : ∀ c ∈ s.visitedSet, c ∉ s.queue → ∀ nb ∈ getNeighbors g c, nb ∈ s.visitedSet
  goalQ : g.goalC ∈ s.visitedSet → g.goalC ∈ s.queue

/-- The invariant holding while the neighbors of the dequeued cell cur (at
distance d0) are processed: the core clauses, monotonicity over the pre-pop
state s, the queue being the old rest plus newly discovered distance d0+1
cells, closure except at cur, and the bookkeeping equation tying the growth
of the visited set to the growth of the queue. -/
structure MidInv (g : GridCfg) (s : BfsState) (cur : Cell) (d0 : Nat) (rest : List Cell)
    (t : BfsState) : Prop where
  core : CoreInv g t
  vSup : s.visitedSet ⊆ t.visitedSet
  distPersist : ∀ c x, s.dist c = some x → t.dist c = some x
  qshape : ∃ nw, t.queue = rest ++ nw ∧ ∀ c ∈ nw, t.dist c = some (d0 + 1)
  curMem : cur ∈ t.visitedSet
  curD : t.dist cur = some d0
  closedX : ∀ c ∈ t.visitedSet, c ∉ t.queue → c ≠ cur → ∀ nb ∈ getNeighbors g c, nb ∈ t.visitedSet
  goalQ : g.goalC ∈ t.visitedSet → g.goalC ∈ t.queue
  qlen : t.visitedSet.length + rest.length = s.visitedSet.length + t.queue.length

/-- The state invariant of the DFS run: coherence of the three-color marking
with the timestamps (a single monotone counter, all stamps distinct,
discovery before finish), the node states of non-nodes, and the recorded
cycles (every recorded cycle is a closed walk, every logged self back edge
has its one-node cycle recorded, the counters agree, and every logged back
edge witnesses a directed cycle in the graph). -/
structure DInv (g : DGraph) (s : DfsState) : Prop where
  discLe : ∀ v t, s.disc v = some t → 1 ≤ t ∧ t ≤ s.time
  finLe : ∀ v t, s.fin v = some t → 1 ≤ t ∧ t ≤ s.time
  discInj : ∀ u v t, s.disc u = some t → s.disc v = some t → u = v
  finInj : ∀ u v t, s.fin u = some t → s.fin v = some t → u = v
  discFin : ∀ u v t, s.disc u = some t → s.fin v = some t → False
  unvSt : ∀ v, s.nstate v = NState.unvisited → s.disc v = none ∧ s.fin v = none
  stackSt : ∀ v, Stacked s v → (∃ d, s.disc v = some d) ∧ s.fin v = none
  visSt : ∀ v, s.nstate v = NState.visited → ∃ d f, s.disc v = some d ∧ s.fin v = some f ∧ d < f
  outside : ∀ v, v ∉ g.nodeIds → s.nstate v = NState.unvisited
  cyclesOk : ∀ c ∈ s.cycles, ClosedWalk g c
  selfLoop : ∀ v, (v, v) ∈ s.backLog → [v] ∈ s.cycles
  countCyc : s.cycleCount = s.backLog.length
  countCycles : s.cycles.length = s.backLog.length
  backCyc : ∀ pr ∈ s.backLog, Relation.TransGen (EdgeStep g) pr.2 pr.2

/-- Precondition of dfsVisit on node n under caller stack σ (innermost
first): n is an unvisited node, its freshly written parent chain is σ, and σ
is exactly the set of stacked nodes. -/
structure VisitPre (g : DGraph) (s : DfsState) (n : Nat) (σ : List Nat) : Prop where
  inv : DInv g s
  nMem : n ∈ g.nodeIds
  nUnv : s.nstate n = NState.unvisited
  sNodup : σ.Nodup
  nNot : n ∉ σ
  sMem : ∀ v ∈ σ, v ∈ g.nodeIds
  stackN : StackFrom g s n σ
  stackChar : ∀ v, Stacked s v ↔ v ∈ σ

/-- Postcondition of dfsVisit: n finishes visited, the stack is restored to
σ, parents of non-unvisited nodes are untouched, node states only progress,
the unvisited count does not grow, and timestamps persist. -/
structure VisitPost (g : DGraph) (s : DfsState) (n : Nat) (σ : List Nat)
    (s' : DfsState) : Prop where
  inv : DInv g s'
  nVisited : s'.nstate n = NState.visited
  stackChar : ∀ v, Stacked s' v ↔ v ∈ σ
  parKeep : ∀ v, s.nstate v ≠ NState.unvisited → s'.par v = s.par v
  parN : s'.par n = s.par n
  visKeep : ∀ v, s.nstate v = NState.visited → s'.nstate v = NState.visited
  unvBack : ∀ v, s'.nstate v = NState.unvisited →
    s.nstate v = NState.unvisited ∧ s'.par v = s.par v
  uLe : U g s' ≤ U g s
  discKeep : ∀ v t, s.disc v = some t → s'.disc v = some t
  finKeep : ∀ v t, s.fin v = some t → s'.fin v = some t
  timeLe : s.time ≤ s'.time

/-- Postcondition of the neighbor loop of node n: like VisitPost, but n is
still on the stack and keeps its chain σ. -/
structure NbrsPost (g : DGraph) (s : DfsState) (n : Nat) (σ : List Nat)
    (s' : DfsState) : Prop where
  inv : DInv g s'
  nStacked : Stacked s' n
  stackN : StackFrom g s' n σ
  stackChar : ∀ v, Stacked s' v ↔ (v = n ∨ v ∈ σ)
  parKeep : ∀ v, s.nstate v ≠ NState.unvisited → s'.par v = s.par v
  visKeep : ∀ v, s.nstate v = NState.visited → s'.nstate v = NState.visited
  unvBack : ∀ v, s'.nstate v = NState.unvisited →
    s.nstate v = NState.unvisited ∧ s'.par v = s.par v
  uLe : U g s' ≤ U g s
  discKeep : ∀ v t, s.disc v = some t → s'.disc v = some t
  finKeep : ∀ v t, s.fin v = some t → s'.fin v = some t
  timeLe : s.time ≤ s'.time

/-- The top-level invariant between root visits: the run invariant, an empty
stack, and clean parents on unvisited nodes. -/
structure TopInv (g : DGraph) (s : DfsState) : Prop where
  inv : DInv g s
  noStack : ∀ v, ¬ Stacked s v
  unvPar : ∀ v, s.nstate v = NState.unvisited → s.par v = none

/-! ## Helper lemmas -/

theorem upd_same {α : Type} [DecidableEq α] {β : Type} (f : α → β) (a : α) (b : β) :
    upd f a b a = b := by simp [upd]

theorem upd_ne {α : Type} [DecidableEq α] {β : Type} (f : α → β) (a : α) (b : β)
    (x : α) (h : x ≠ a) : upd f a b x = f x := by simp [upd, h]

/-! ## C6: the 5 by 5 concrete scenario -/

/-- C6 counterexample: on the 5 by 5 empty grid with start (1,1) and
goal (3,3), runBFS dequeues 21 cells before reaching the goal, not the 16 the
claim states (the 17 cells within hop distance 3 are all dequeued first, then
four distance-4 cells precede the goal in the queue). -/
theorem c6_counterexample :
    ((runBFS g6).map fun r => r.2.2.visitedCount) = some 21 ∧
      ((runBFS g6).map fun r => r.2.2.visitedCount) ≠ some 16 := by
  constructor <;> decide

/-- C6 (amended): on the 5 by 5 empty grid with start (1,1) and goal (3,3),
running BFS to completion yields pathFound true, a reported pathLength of 4
and a visited count of 21, with neighbors expanded in the fixed direction
order left, right, up, down. -/
theorem c6_scenario :
    dirs = [(-1, 0), (1, 0), (0, -1), (0, 1)] ∧
      ((runBFS g6).map fun r => (r.1, r.2.2.pathLength, r.2.2.visitedCount)) =
        some (true, 4, 21) := by
  constructor <;> decide

/-! ## C8: reset does not stop a running BFS -/

/-- C8: reset clears both flags, after which the runBFS loop guard (which
reads only the queue and isPaused) still evaluates to true, and the loop run
with the post-reset value of isPaused executes to full completion on the demo
grid: 21 further dequeue mutations and a completed path report, instead of
stopping within one step as the claim requires. -/
theorem c8_reset_keeps_running :
    resetFlags { isRunning := true, isPaused := false } = { isRunning := false, isPaused := false } ∧
      bfsGuard 1 (resetFlags { isRunning := true, isPaused := true }) = true ∧
      ((bfsLoop g6 (resetFlags { isRunning := true, isPaused := true }).isPaused
            (bfsFuel g6) (initState g6)).map fun r => (r.1, r.2.2.visitedCount)) =
        some (true, 21) := by
  refine ⟨rfl, rfl, ?_⟩
  decide

/-! ## C7: grid editing on out-of-range coordinates -/

/-- C7 counterexample: grid7 has its start at (1,1); calling
setStart with the out-of-range column 9 demotes the type of the current start
cell to empty even though the coordinates are invalid, so the grid state is
not left unchanged. -/
theorem c7_counterexample :
    (setStart grid7 9 0).typ (1, 1) ≠ grid7.typ (1, 1) := by decide

/-- C7 (amended): on out-of-range coordinates toggleWall is a strict no-op;
setStart and setGoal leave the start and goal references and every cell type
unchanged, except that the cell currently referenced as start (respectively
goal) has its type set to empty. -/
theorem c7_boundary (g : GridS) (col row : Int) (h : ¬ isValidCellI g col row) :
    toggleWall g col row = g ∧
      (setStart g col row).startRef = g.startRef ∧
      (setStart g col row).goalRef = g.goalRef ∧
      (∀ p : Cell, (setStart g col row).typ p =
        if g.startRef = some p then CellT.empty else g.typ p) ∧
      (setGoal g col row).startRef = g.startRef ∧
      (setGoal g col row).goalRef = g.goalRef ∧
      (∀ p : Cell, (setGoal g col row).typ p =
        if g.goalRef = some p then CellT.empty else g.typ p) := by
  refine ⟨by simp [toggleWall, h], ?_, ?_, ?_, ?_, ?_, ?_⟩
  · cases hs : g.startRef <;> simp [setStart, h, hs]
  · cases hs : g.startRef <;> simp [setStart, h, hs]
  · intro p
    cases hs : g.startRef with
    | none => simp [setStart, h, hs]
    | some s =>
      by_cases hp : p = s
      · subst hp; simp [setStart, h, hs, upd]
      · simp [setStart, h, hs, upd, hp, Ne.symm hp]
  · cases hs : g.goalRef <;> simp [setGoal, h, hs]
  · cases hs : g.goalRef <;> simp [setGoal, h, hs]
  · intro p
    cases hs : g.goalRef with
    | none => simp [setGoal, h, hs]
    | some s =>
      by_cases hp : p = s
      · subst hp; simp [setGoal, h, hs, upd]
      · simp [setGoal, h, hs, upd, hp, Ne.symm hp]

/-- C7 witness: the amended statement applied to grid7 with the invalid
column 9. -/
theorem c7_boundary_witness :
    (¬ isValidCellI grid7 9 0) ∧
      (toggleWall grid7 9 0 = grid7 ∧
        (setStart grid7 9 0).startRef = grid7.startRef ∧
        (setStart grid7 9 0).goalRef = grid7.goalRef ∧
        (∀ p : Cell, (setStart grid7 9 0).typ p =
          if grid7.startRef = some p then CellT.empty else grid7.typ p) ∧
        (setGoal grid7 9 0).startRef = grid7.startRef ∧
        (setGoal grid7 9 0).goalRef = grid7.goalRef ∧
        (∀ p : Cell, (setGoal grid7 9 0).typ p =
          if grid7.goalRef = some p then CellT.empty else grid7.typ p)) :=
  ⟨by decide, c7_boundary grid7 9 0 (by decide)⟩

/-! ## BFS: basic facts about getNeighbors -/

/-- Every neighbor returned by getNeighbors is in bounds and not a wall. -/
theorem mem_getNeighbors_ok (g : GridCfg) (a b : Cell) (h : b ∈ getNeighbors g a) :
    b.1 < g.cols ∧ b.2 < g.rows ∧ g.wall b = false := by
  unfold getNeighbors at h
  simp only [List.mem_filterMap] at h
  obtain ⟨d, _, hd⟩ := h
  split at hd
  · split at hd
    · exact absurd hd (by simp)
    · rename_i hin hw
      obtain ⟨h1, h2, h3, h4⟩ := hin
      have hb : b = ((((a.1 : Int) + d.1).toNat : Nat), (((a.2 : Int) + d.2).toNat : Nat)) := by
        simpa using hd.symm
      subst hb
      refine ⟨?_, ?_, by simpa using hw⟩
      · omega
      · omega
  · exact absurd hd (by simp)

/-- A duplicate-free list of in-bounds cells has at most cols * rows
elements. -/
theorem length_le_area (g : GridCfg) (l : List Cell) (hnd : l.Nodup)
    (hb : ∀ c ∈ l, c.1 < g.cols ∧ c.2 < g.rows) : l.length ≤ g.cols * g.rows := by
  have hsub : l.toFinset ⊆ Finset.range g.cols ×ˢ Finset.range g.rows := by
    intro c hc
    rw [List.mem_toFinset] at hc
    obtain ⟨h1, h2⟩ := hb c hc
    simp [Finset.mem_product, Finset.mem_range, h1, h2]
  have := Finset.card_le_card hsub
  rwa [List.toFinset_card_of_nodup hnd, Finset.card_product, Finset.card_range,
    Finset.card_range] at this

/-! ## BFS: the loop invariant -/

/-- The invariant holds right after initialization. -/
theorem loopInv_init (g : GridCfg) (hv : GValid g) : LoopInv g (initState g) := by
  obtain ⟨h1, h2, h3⟩ := hv
  refine
    { startMem := by simp [initState]
      vNodup := by simp [initState]
      vBounds := ?_
      qSub := by simp [initState]
      qNodup := by simp [initState]
      distLeast := ?_
      distNone := ?_
      parStart := by simp [initState, upd]
      parLink := ?_
      vchar := ?_
      qBlocks := ?_
      closedSet := by simp [initState]
      goalQ := by simp [initState] }
  · intro c hc
    simp [initState] at hc
    subst hc; exact ⟨h1, h2, h3⟩
  · intro c hc
    simp [initState] at hc
    subst hc
    exact ⟨0, by simp [initState, upd], rfl, fun m _ => Nat.zero_le m⟩
  · intro c hc
    simp [initState] at hc
    exact ⟨by simp [initState, upd, hc], rfl⟩
  · intro c hc hne
    simp [initState] at hc
    exact absurd hc hne
  · intro c
    by_cases hc : c = g.startC
    · subst hc; simp [initState, upd]
    · simp [initState, upd, hc]
  · exact ⟨0, [g.startC], [], by simp [initState], by simp [initState, upd], by simp⟩

/-- The frontier cut: any walk from the start to an undiscovered cell meets
the queue at a cell whose assigned distance is below the walk length. -/
theorem bfs_cut (g : GridCfg) (s : BfsState) (hs : LoopInv g s) :
    ∀ m x, pathLen g m g.startC x → x ∉ s.visitedSet →
      ∃ q ∈ s.queue, ∃ dq, s.dist q = some dq ∧ dq + 1 ≤ m := by
  intro m
  induction m with
  | zero =>
    intro x hp hx
    exact absurd (show x ∈ s.visitedSet from hp ▸ hs.startMem) hx
  | succ m ih =>
    intro x hp hx
    obtain ⟨c, hpc, hadj⟩ := hp
    by_cases hc : c ∈ s.visitedSet
    · by_cases hcq : c ∈ s.queue
      · obtain ⟨dc, hdc, _, hleast⟩ := hs.distLeast c hc
        exact ⟨c, hcq, dc, hdc, Nat.succ_le_succ (hleast m hpc)⟩
      · exact absurd (hs.closedSet c hc hcq x hadj) hx
    · obtain ⟨q, hq, dq, hdq, hle⟩ := ih c hpc hc
      exact ⟨q, hq, dq, hdq, Nat.le_succ_of_le hle⟩

/-- At a dequeue, every queued cell has an assigned distance between that of
the dequeued head and one more. -/
theorem queue_min (g : GridCfg) (s : BfsState) (hs : LoopInv g s)
    (cur : Cell) (rest : List Cell) (hq : s.queue = cur :: rest)
    (d0 : Nat) (hd0 : s.dist cur = some d0) :
    ∀ q ∈ s.queue, ∃ dq, s.dist q = some dq ∧ d0 ≤ dq ∧ dq ≤ d0 + 1 := by
  obtain ⟨d, lA, lB, hsplit, hA, hB⟩ := hs.qBlocks
  cases lA with
  | nil =>
    simp only [List.nil_append] at hsplit
    have hcur : s.dist cur = some (d + 1) := hB cur (by rw [← hsplit, hq]; simp)
    have hd : d0 = d + 1 := by rw [hd0] at hcur; exact (Option.some_inj.mp hcur)
    intro q hqm
    have : q ∈ lB := by rw [← hsplit]; exact hqm
    exact ⟨d + 1, hB q this, by omega, by omega⟩
  | cons a lA' =>
    have hcura : cur = a := by
      rw [hq] at hsplit
      exact (List.cons_eq_cons.mp hsplit).1
    have hcur : s.dist cur = some d := hA cur (by rw [hcura]; simp)
    have hd : d0 = d := by rw [hd0] at hcur; exact Option.some_inj.mp hcur
    subst hd
    intro q hqm
    rw [hsplit] at hqm
    rcases List.mem_append.mp hqm with hin | hin
    · exact ⟨d0, hA q hin, le_refl _, by omega⟩
    · exact ⟨d0 + 1, hB q hin, by omega, le_refl _⟩

/-! ## BFS: the reconstructed path -/

/-- Under the invariant, the parent walk from a discovered cell with assigned
distance dc (given any fuel of at least dc) is a duplicate-free path of dc
hops from the start to that cell, through discovered cells of distance at
most dc. -/
theorem parentChain_spec (g : GridCfg) (s : BfsState) (hc : CoreInv g s) :
    ∀ dc c, c ∈ s.visitedSet → s.dist c = some dc →
      ∀ f, dc ≤ f →
        (parentChain s.par f c).head? = some g.startC ∧
        (parentChain s.par f c).getLast? = some c ∧
        List.Chain' (Adj g) (parentChain s.par f c) ∧
        (parentChain s.par f c).length = dc + 1 ∧
        (∀ x ∈ parentChain s.par f c, x ∈ s.visitedSet ∧
          ∃ dx, s.dist x = some dx ∧ dx ≤ dc) ∧
        (parentChain s.par f c).Nodup := by
  intro dc
  induction dc using Nat.strong_induction_on with
  | _ dc ih =>
    intro c hcmem hcd f hf
    by_cases hcs : c = g.startC
    · subst hcs
      have h0 : dc = 0 := by
        have h := hc.parStart.2
        rw [hcd] at h
        exact Option.some_inj.mp h
      subst h0
      have hch : parentChain s.par f g.startC = [g.startC] := by
        cases f with
        | zero => rfl
        | succ f' => simp [parentChain, hc.parStart.1]
      rw [hch]
      refine ⟨rfl, rfl, by simp, rfl, ?_, by simp⟩
      intro x hx
      simp at hx
      subst hx
      exact ⟨hcmem, 0, hc.parStart.2, le_refl 0⟩
    · obtain ⟨p, dp, hpar, hpmem, hadj, hdp, hdc1⟩ := hc.parLink c hcmem hcs
      have hdc' : dc = dp + 1 := by
        rw [hcd] at hdc1
        exact Option.some_inj.mp hdc1
      subst hdc'
      obtain ⟨f', rfl⟩ : ∃ f', f = f' + 1 := ⟨f - 1, by omega⟩
      have hf' : dp ≤ f' := by omega
      have heq : parentChain s.par (f' + 1) c = parentChain s.par f' p ++ [c] := by
        simp [parentChain, hpar]
      obtain ⟨ih1, ih2, ih3, ih4, ih5, ih6⟩ := ih dp (by omega) p hpmem hdp f' hf'
      rw [heq]
      have hcnot : c ∉ parentChain s.par f' p := by
        intro hmem
        obtain ⟨_, dx, hdx, hxle⟩ := ih5 c hmem
        rw [hcd] at hdx
        have := Option.some_inj.mp hdx
        omega
      refine ⟨?_, ?_, ?_, ?_, ?_, ?_⟩
      · obtain ⟨a, l', hl⟩ := List.exists_cons_of_ne_nil
          (show parentChain s.par f' p ≠ [] by intro h; rw [h] at ih4; simp at ih4)
        rw [hl]
        rw [hl] at ih1
        simpa using ih1
      · simp
      · rw [List.chain'_append]
        refine ⟨ih3, by simp, ?_⟩
        intro x hx y hy
        simp at hy
        subst hy
        rw [ih2] at hx
        simp at hx
        subst hx
        exact hadj
      · simp [ih4]
      · intro x hx
        rcases List.mem_append.mp hx with hin | hin
        · obtain ⟨hmem, dx, hdx, hle⟩ := ih5 x hin
          exact ⟨hmem, dx, hdx, by omega⟩
        · simp at hin
          subst hin
          exact ⟨hcmem, dp + 1, hdc1, le_refl _⟩
      · rw [List.nodup_append]
        exact ⟨ih6, by simp, by intro x hx hxc; simp at hxc; subst hxc; exact hcnot hx⟩

/-- The assigned distance of a discovered cell is below the visited-set size
(the parent chain has distance-plus-one distinct discovered cells). -/
theorem dist_lt_size (g : GridCfg) (s : BfsState) (hc : CoreInv g s)
    (c : Cell) (hm : c ∈ s.visitedSet) (dc : Nat) (hd : s.dist c = some dc) :
    dc < s.visitedSet.length := by
  obtain ⟨_, _, _, h4, h5, h6⟩ := parentChain_spec g s hc dc c hm hd dc (le_refl _)
  have hsub : parentChain s.par dc c ⊆ s.visitedSet := fun x hx => (h5 x hx).1
  have := (List.subperm_of_subset h6 hsub).length_le
  omega

/-- reconstructPath on a discovered cell: a path of its assigned distance. -/
theorem reconstructPath_spec (g : GridCfg) (s : BfsState) (hc : CoreInv g s)
    (c : Cell) (hm : c ∈ s.visitedSet) (dc : Nat) (hd : s.dist c = some dc) :
    (reconstructPath s c).head? = some g.startC ∧
    (reconstructPath s c).getLast? = some c ∧
    List.Chain' (Adj g) (reconstructPath s c) ∧
    (reconstructPath s c).length = dc + 1 ∧
    (∀ x ∈ reconstructPath s c, x ∈ s.visitedSet) := by
  have hlt := dist_lt_size g s hc c hm dc hd
  obtain ⟨h1, h2, h3, h4, h5, _⟩ :=
    parentChain_spec g s hc dc c hm hd s.visitedSet.length (by omega)
  exact ⟨h1, h2, h3, h4, fun x hx => (h5 x hx).1⟩

/-! ## BFS: the neighbor-discovery fold -/

/-- Processing one neighbor preserves the mid invariant, and afterwards the
neighbor is discovered and the visited set has only grown. -/
theorem discoverStep_spec (g : GridCfg) (s : BfsState) (hs : LoopInv g s)
    (cur : Cell) (rest : List Cell) (hq : s.queue = cur :: rest)
    (d0 : Nat) (hd0 : s.dist cur = some d0) (hp0 : pathLen g d0 g.startC cur)
    (t : BfsState) (hm : MidInv g s cur d0 rest t)
    (nb : Cell) (hnb : nb ∈ getNeighbors g cur) :
    MidInv g s cur d0 rest (discoverStep cur t nb) ∧
      nb ∈ (discoverStep cur t nb).visitedSet ∧
      (∀ c ∈ t.visitedSet, c ∈ (discoverStep cur t nb).visitedSet) := by
  by_cases hmem : nb ∈ t.visitedSet
  · rw [discoverStep, if_pos hmem]
    exact ⟨hm, hmem, fun c hc => hc⟩
  · have hvs : (discoverStep cur t nb).visitedSet = nb :: t.visitedSet := by
      rw [discoverStep, if_neg hmem]
    have hqs : (discoverStep cur t nb).queue = t.queue ++ [nb] := by
      rw [discoverStep, if_neg hmem]
    have hds : (discoverStep cur t nb).dist = upd t.dist nb ((t.dist cur).map (· + 1)) := by
      rw [discoverStep, if_neg hmem]
    have hps : (discoverStep cur t nb).par = upd t.par nb (some cur) := by
      rw [discoverStep, if_neg hmem]
    have hss : (discoverStep cur t nb).vstate = upd t.vstate nb VState.frontier := by
      rw [discoverStep, if_neg hmem]
    have hnbs : nb ∉ s.visitedSet := fun h => hmem (hm.vSup h)
    have hcurne : cur ≠ nb := fun h => hmem (h ▸ hm.curMem)
    have hstartne : g.startC ≠ nb := fun h => hmem (h ▸ (hm.vSup hs.startMem))
    have hnbq : nb ∉ t.queue := fun h => hmem (hm.core.qSub nb h)
    have hdistnb : (discoverStep cur t nb).dist nb = some (d0 + 1) := by
      rw [hds, upd_same, hm.curD]; rfl
    have hdistother : ∀ c, c ≠ nb → (discoverStep cur t nb).dist c = t.dist c := by
      intro c hc
      rw [hds, upd_ne _ _ _ _ hc]
    have hparother : ∀ c, c ≠ nb → (discoverStep cur t nb).par c = t.par c := by
      intro c hc
      rw [hps, upd_ne _ _ _ _ hc]
    -- minimality of d0 + 1 among walk lengths reaching nb
    have hleastnb : ∀ m, pathLen g m g.startC nb → d0 + 1 ≤ m := by
      intro m hmp
      obtain ⟨q, hqmem, dq, hdq, hdq1⟩ := bfs_cut g s hs m nb hmp hnbs
      obtain ⟨dq', hdq', hge, _⟩ := queue_min g s hs cur rest hq d0 hd0 q hqmem
      rw [hdq] at hdq'
      have := Option.some_inj.mp hdq'
      omega
    have hreach : pathLen g (d0 + 1) g.startC nb := ⟨cur, hp0, hnb⟩
    obtain ⟨nw, hnw, hnwd⟩ := hm.qshape
    refine ⟨?_, by rw [hvs]; simp, fun c hc => by rw [hvs]; simp [hc]⟩
    refine
      { core := ?_
        vSup := fun c hc => by rw [hvs]; simp [hm.vSup hc]
        distPersist := ?_
        qshape := ⟨nw ++ [nb], by rw [hqs, hnw]; simp, ?_⟩
        curMem := by rw [hvs]; simp [hm.curMem]
        curD := by rw [hdistother cur hcurne]; exact hm.curD
        closedX := ?_
        goalQ := ?_
        qlen := ?_ }
    · -- the core invariant for the extended state
      refine
        { startMem := by rw [hvs]; simp [hm.core.startMem]
          vNodup := by rw [hvs]; exact List.Nodup.cons hmem hm.core.vNodup
          vBounds := ?_
          qSub := ?_
          qNodup := ?_
          distLeast := ?_
          distNone := ?_
          parStart := ?_
          parLink := ?_
          vchar := ?_ }
      · intro c hc
        rw [hvs] at hc
        rcases List.mem_cons.mp hc with h | h
        · subst h; exact mem_getNeighbors_ok g cur c hnb
        · exact hm.core.vBounds c h
      · intro c hc
        rw [hqs] at hc
        rw [hvs]
        rcases List.mem_append.mp hc with h | h
        · exact List.mem_cons_of_mem _ (hm.core.qSub c h)
        · simp at h; subst h; exact List.mem_cons_self _ _
      · rw [hqs, List.nodup_append]
        exact ⟨hm.core.qNodup, by simp,
          by intro x hx hxn; simp at hxn; subst hxn; exact hnbq hx⟩
      · intro c hc
        rw [hvs] at hc
        rcases List.mem_cons.mp hc with h | h
        · subst h
          exact ⟨d0 + 1, hdistnb, hreach, hleastnb⟩
        · obtain ⟨d, hd, hp, hl⟩ := hm.core.distLeast c h
          have hcne : c ≠ nb := fun he => hmem (he ▸ h)
          exact ⟨d, by rw [hdistother c hcne]; exact hd, hp, hl⟩
      · intro c hc
        rw [hvs] at hc
        have hcne : c ≠ nb := by intro he; subst he; exact hc (by simp)
        have hcnt : c ∉ t.visitedSet := fun h => hc (by simp [h])
        obtain ⟨h1, h2⟩ := hm.core.distNone c hcnt
        exact ⟨by rw [hdistother c hcne]; exact h1, by rw [hparother c hcne]; exact h2⟩
      · exact ⟨by rw [hparother _ hstartne]; exact hm.core.parStart.1,
          by rw [hdistother _ hstartne]; exact hm.core.parStart.2⟩
      · intro c hc hcs
        rw [hvs] at hc
        rcases List.mem_cons.mp hc with h | h
        · subst h
          refine ⟨cur, d0, by rw [hps]; exact upd_same _ _ _, by rw [hvs]; simp [hm.curMem],
            hnb, by rw [hdistother cur hcurne]; exact hm.curD, hdistnb⟩
        · obtain ⟨p, dp, h1, h2, h3, h4, h5⟩ := hm.core.parLink c h hcs
          have hcne : c ≠ nb := fun he => hmem (he ▸ h)
          have hpne : p ≠ nb := fun he => hmem (he ▸ h2)
          exact ⟨p, dp, by rw [hparother c hcne]; exact h1, by rw [hvs]; simp [h2], h3,
            by rw [hdistother p hpne]; exact h4, by rw [hdistother c hcne]; exact h5⟩
      · intro c
        rw [hss, hvs, hqs]
        by_cases hcn : c = nb
        · subst hcn
          rw [upd_same, if_pos (by simp), if_pos (by simp)]
        · rw [upd_ne _ _ _ _ hcn]
          rw [hm.core.vchar c]
          have hmq : (c ∈ t.queue ++ [nb]) ↔ c ∈ t.queue := by simp [hcn]
          have hmv : (c ∈ nb :: t.visitedSet) ↔ c ∈ t.visitedSet := by simp [hcn]
          simp only [hmq, hmv]
    · intro c x hcx
      have hcne : c ≠ nb := by
        intro he
        subst he
        have := (hs.distNone c hnbs).1
        rw [this] at hcx
        exact Option.noConfusion hcx
      rw [hdistother c hcne]
      exact hm.distPersist c x hcx
    · intro c hc
      rcases List.mem_append.mp hc with h | h
      · have hcne : c ≠ nb := by
          intro he; subst he
          exact hmem (hm.core.qSub c (by rw [hnw]; exact List.mem_append_right _ h))
        rw [hdistother c hcne]
        exact hnwd c h
      · simp at h; subst h; exact hdistnb
    · intro c hc hcq hccur nb' hnb'
      rw [hvs] at hc ⊢
      rw [hqs] at hcq
      have hcne : c ≠ nb := by
        intro he; subst he
        exact hcq (by simp)
      rcases List.mem_cons.mp hc with h | h
      · exact absurd h hcne
      · have hcqt : c ∉ t.queue := fun hh => hcq (List.mem_append_left _ hh)
        exact List.mem_cons_of_mem _ (hm.closedX c h hcqt hccur nb' hnb')
    · intro hg
      rw [hvs] at hg
      rw [hqs]
      rcases List.mem_cons.mp hg with h | h
      · rw [h]; simp
      · exact List.mem_append_left _ (hm.goalQ h)
    · rw [hvs, hqs]
      have := hm.qlen
      simp only [List.length_cons, List.length_append, List.length_nil]
      omega

/-- Folding the discovery step over any sublist of the neighbors of cur
preserves the mid invariant, discovers every processed neighbor, and only
grows the visited set. -/
theorem fold_discover_spec (g : GridCfg) (s : BfsState) (hs : LoopInv g s)
    (cur : Cell) (rest : List Cell) (hq : s.queue = cur :: rest)
    (d0 : Nat) (hd0 : s.dist cur = some d0) (hp0 : pathLen g d0 g.startC cur) :
    ∀ (l : List Cell) (t : BfsState),
      (∀ nb ∈ l, nb ∈ getNeighbors g cur) → MidInv g s cur d0 rest t →
      MidInv g s cur d0 rest (l.foldl (discoverStep cur) t) ∧
        (∀ nb ∈ l, nb ∈ (l.foldl (discoverStep cur) t).visitedSet) ∧
        (∀ c ∈ t.visitedSet, c ∈ (l.foldl (discoverStep cur) t).visitedSet) := by
  intro l
  induction l with
  | nil => exact fun t _ hm => ⟨hm, by simp, fun c hc => hc⟩
  | cons nb l' ihl =>
    intro t hsub hm
    obtain ⟨hm', hnbm, hmono⟩ :=
      discoverStep_spec g s hs cur rest hq d0 hd0 hp0 t hm nb (hsub nb (by simp))
    obtain ⟨h1, h2, h3⟩ :=
      ihl (discoverStep cur t nb) (fun x hx => hsub x (by simp [hx])) hm'
    refine ⟨by simpa using h1, ?_, fun c hc => by simpa using h3 c (hmono c hc)⟩
    intro x hx
    rcases List.mem_cons.mp hx with h | h
    · subst h; simpa using h3 x hnbm
    · simpa using h2 x h

/-! ## BFS: unfolding the loop -/

/-- One unfolding: empty queue means exhaustion. -/
theorem bfsLoop_succ_nil (g : GridCfg) (paused : Bool) (fuel : Nat) (s : BfsState)
    (h : s.queue = []) : bfsLoop g paused (fuel + 1) s = some (false, [], s) := by
  simp [bfsLoop, h]

/-- One unfolding: the goal at the head of the queue ends the loop with the
reconstructed path (reconstructPath reads only the parent map and the visited
set, which the dequeue does not change). -/
theorem bfsLoop_succ_found (g : GridCfg) (fuel : Nat) (s : BfsState) (rest : List Cell)
    (h : s.queue = g.goalC :: rest) :
    bfsLoop g false (fuel + 1) s =
      some (true, reconstructPath s g.goalC,
        { s with
          queue := rest
          vstate := upd s.vstate g.goalC VState.visited
          visitedCount := s.visitedCount + 1
          pathLength := (reconstructPath s g.goalC).length - 1 }) := by
  simp [bfsLoop, h, reconstructPath]

/-- One unfolding: a non-goal head is dequeued and its neighbors explored. -/
theorem bfsLoop_succ_step (g : GridCfg) (fuel : Nat) (s : BfsState) (cur : Cell)
    (rest : List Cell) (h : s.queue = cur :: rest) (hg : cur ≠ g.goalC) :
    bfsLoop g false (fuel + 1) s =
      bfsLoop g false fuel ((getNeighbors g cur).foldl (discoverStep cur)
        { s with
          queue := rest
          vstate := upd s.vstate cur VState.visited
          visitedCount := s.visitedCount + 1 }) := by
  simp [bfsLoop, h, hg]

/-- The core invariant survives a dequeue. -/
theorem popped_core (g : GridCfg) (s : BfsState) (hs : LoopInv g s)
    (cur : Cell) (rest : List Cell) (hq : s.queue = cur :: rest) :
    CoreInv g { s with
      queue := rest
      vstate := upd s.vstate cur VState.visited
      visitedCount := s.visitedCount + 1 } := by
  have hcurmem : cur ∈ s.visitedSet := hs.qSub cur (by rw [hq]; simp)
  have hcurnotrest : cur ∉ rest := by
    have h := hs.qNodup
    rw [hq] at h
    exact (List.nodup_cons.mp h).1
  refine
    { startMem := hs.startMem
      vNodup := hs.vNodup
      vBounds := hs.vBounds
      qSub := fun c hc => hs.qSub c (by rw [hq]; exact List.mem_cons_of_mem _ hc)
      qNodup := by
        have h := hs.qNodup
        rw [hq] at h
        exact (List.nodup_cons.mp h).2
      distLeast := hs.distLeast
      distNone := hs.distNone
      parStart := hs.parStart
      parLink := hs.parLink
      vchar := ?_ }
  intro c
  show upd s.vstate cur VState.visited c = _
  by_cases hc : c = cur
  · subst hc
    rw [upd_same, if_pos hcurmem, if_neg hcurnotrest]
  · rw [upd_ne _ _ _ _ hc, hs.vchar c]
    have hmq : c ∈ s.queue ↔ c ∈ rest := by
      rw [hq]
      simp [hc]
    simp only [hmq]

/-- CoreInv depends only on the five fields it mentions. -/
theorem coreInv_congr (g : GridCfg) (s t : BfsState) (hc : CoreInv g s)
    (h1 : t.queue = s.queue) (h2 : t.visitedSet = s.visitedSet) (h3 : t.dist = s.dist)
    (h4 : t.par = s.par) (h5 : t.vstate = s.vstate) : CoreInv g t :=
  { startMem := by rw [h2]; exact hc.startMem
    vNodup := by rw [h2]; exact hc.vNodup
    vBounds := by rw [h2]; exact hc.vBounds
    qSub := by rw [h1, h2]; exact hc.qSub
    qNodup := by rw [h1]; exact hc.qNodup
    distLeast := by rw [h2, h3]; exact hc.distLeast
    distNone := by rw [h2, h3, h4]; exact hc.distNone
    parStart := by rw [h3, h4]; exact hc.parStart
    parLink := by rw [h2, h3, h4]; exact hc.parLink
    vchar := by rw [h1, h2, h5]; exact hc.vchar }

/-! ## BFS: the master loop lemma -/

/-- Running the loop from any state satisfying the invariant with sufficient
fuel succeeds; the final state satisfies the core invariant, assigned
distances persist, a success carries the reconstructed path to the goal, and
an exhaustion means the queue emptied with the full invariant intact. -/
theorem bfsLoop_spec (g : GridCfg) :
    ∀ fuel s, LoopInv g s →
      2 * (g.cols * g.rows - s.visitedSet.length) + s.queue.length < fuel →
      ∃ found p s', bfsLoop g false fuel s = some (found, p, s') ∧
        CoreInv g s' ∧
        (∀ c x, s.dist c = some x → s'.dist c = some x) ∧
        (found = true → g.goalC ∈ s'.visitedSet ∧ p = reconstructPath s' g.goalC ∧
          s'.pathLength = p.length - 1) ∧
        (found = false → p = [] ∧ s'.queue = [] ∧ LoopInv g s') := by
  intro fuel
  induction fuel with
  | zero => intro s _ hf; omega
  | succ fuel ih =>
    intro s hs hf
    cases hq : s.queue with
    | nil =>
      exact ⟨false, [], s, bfsLoop_succ_nil g false fuel s hq, hs.toCoreInv,
        fun c x h => h, by simp, fun _ => ⟨rfl, hq, hs⟩⟩
    | cons cur rest =>
      have hcurmem : cur ∈ s.visitedSet := hs.qSub cur (by rw [hq]; simp)
      obtain ⟨d0, hd0, hp0, hleast0⟩ := hs.distLeast cur hcurmem
      by_cases hcur : cur = g.goalC
      · subst hcur
        refine ⟨true, reconstructPath s g.goalC,
          { s with
            queue := rest
            vstate := upd s.vstate g.goalC VState.visited
            visitedCount := s.visitedCount + 1
            pathLength := (reconstructPath s g.goalC).length - 1 },
          bfsLoop_succ_found g fuel s rest hq, ?_, fun c x h => h, ?_, by simp⟩
        · exact coreInv_congr g _ _ (popped_core g s hs g.goalC rest hq) rfl rfl rfl rfl rfl
        · exact fun _ => ⟨hcurmem, rfl, rfl⟩
      · -- dequeue cur and explore its neighbors
        have hm0 : MidInv g s cur d0 rest
            { s with
              queue := rest
              vstate := upd s.vstate cur VState.visited
              visitedCount := s.visitedCount + 1 } := by
          refine
            { core := popped_core g s hs cur rest hq
              vSup := fun c hc => hc
              distPersist := fun c x h => h
              qshape := ⟨[], by simp, by simp⟩
              curMem := hcurmem
              curD := hd0
              closedX := ?_
              goalQ := ?_
              qlen := rfl }
          · intro c hc hcq hccur nb hnb
            have hcq' : c ∉ s.queue := by
              rw [hq]
              intro h
              rcases List.mem_cons.mp h with h | h
              · exact hccur h
              · exact hcq h
            exact hs.closedSet c hc hcq' nb hnb
          · intro hg
            have := hs.goalQ hg
            rw [hq] at this
            rcases List.mem_cons.mp this with h | h
            · exact absurd h.symm hcur
            · exact h
        obtain ⟨hm2, hall, _⟩ :=
          fold_discover_spec g s hs cur rest hq d0 hd0 hp0 (getNeighbors g cur) _
            (fun nb hnb => hnb) hm0
        set s2 := (getNeighbors g cur).foldl (discoverStep cur)
          { s with
            queue := rest
            vstate := upd s.vstate cur VState.visited
            visitedCount := s.visitedCount + 1 } with hs2def
        -- the full invariant for s2
        obtain ⟨nw, hnw, hnwd⟩ := hm2.qshape
        have hloop2 : LoopInv g s2 := by
          refine
            { toCoreInv := hm2.core
              qBlocks := ?_
              closedSet := ?_
              goalQ := hm2.goalQ }
          · obtain ⟨d, lA, lB, hsplit, hA, hB⟩ := hs.qBlocks
            rw [hq] at hsplit
            cases lA with
            | nil =>
              simp only [List.nil_append] at hsplit
              have hcd : s.dist cur = some (d + 1) := hB cur (by rw [← hsplit]; simp)
              have hd0eq : d0 = d + 1 := by
                rw [hd0] at hcd
                exact Option.some_inj.mp hcd
              refine ⟨d0, rest, nw, hnw, ?_, hnwd⟩
              intro c hc
              have : c ∈ lB := by rw [← hsplit]; exact List.mem_cons_of_mem _ hc
              have := hB c this
              rw [hd0eq]
              exact hm2.distPersist c (d + 1) this
            | cons a lA' =>
              have hca : cur = a := (List.cons_eq_cons.mp hsplit).1
              have hrest : rest = lA' ++ lB := (List.cons_eq_cons.mp hsplit).2
              have hcd : s.dist cur = some d := hA cur (by rw [hca]; simp)
              have hd0eq : d0 = d := by
                rw [hd0] at hcd
                exact Option.some_inj.mp hcd
              subst hd0eq
              refine ⟨d0, lA', lB ++ nw, ?_, ?_, ?_⟩
              · rw [hnw, hrest, List.append_assoc]
              · intro c hc
                exact hm2.distPersist c d0 (hA c (List.mem_cons_of_mem _ hc))
              · intro c hc
                rcases List.mem_append.mp hc with h | h
                · exact hm2.distPersist c (d0 + 1) (hB c h)
                · exact hnwd c h
          · intro c hc hcq nb hnb
            by_cases hccur : c = cur
            · subst hccur
              exact hall nb hnb
            · exact hm2.closedX c hc hcq hccur nb hnb
        -- fuel accounting
        have harea1 : s.visitedSet.length ≤ g.cols * g.rows :=
          length_le_area g _ hs.vNodup (fun c hc => ⟨(hs.vBounds c hc).1, (hs.vBounds c hc).2.1⟩)
        have harea2 : s2.visitedSet.length ≤ g.cols * g.rows :=
          length_le_area g _ hm2.core.vNodup
            (fun c hc => ⟨(hm2.core.vBounds c hc).1, (hm2.core.vBounds c hc).2.1⟩)
        have hsub1 : s.visitedSet.length ≤ s2.visitedSet.length :=
          (List.subperm_of_subset hs.vNodup hm2.vSup).length_le
        have hql := hm2.qlen
        have hf2 : 2 * (g.cols * g.rows - s2.visitedSet.length) + s2.queue.length < fuel := by
          rw [hq] at hf
          simp only [List.length_cons] at hf
          omega
        obtain ⟨found, p, s', heq, hcore, hpers, hfound, hfalse⟩ := ih s2 hloop2 hf2
        exact ⟨found, p, s', by rw [bfsLoop_succ_step g fuel s cur rest hq hcur]; exact heq,
          hcore, fun c x h => hpers c x (hm2.distPersist c x h), hfound, hfalse⟩

/-- When the queue has emptied, the visited set is closed under adjacency and
therefore contains every reachable cell. -/
theorem reach_closed (g : GridCfg) (s : BfsState) (hs : LoopInv g s) (hq : s.queue = []) :
    ∀ n x, pathLen g n g.startC x → x ∈ s.visitedSet := by
  intro n
  induction n with
  | zero => intro x hp; exact hp ▸ hs.startMem
  | succ n ihn =>
    intro x hp
    obtain ⟨c, hpc, hadj⟩ := hp
    exact hs.closedSet c (ihn c hpc) (by rw [hq]; simp) x hadj

/-- The fuel chosen by runBFS satisfies the measure bound at the initial
state. -/
theorem initState_fuel (g : GridCfg) :
    2 * (g.cols * g.rows - (initState g).visitedSet.length) + (initState g).queue.length <
      bfsFuel g := by
  simp only [initState, List.length_cons, List.length_nil, bfsFuel]
  rw [Nat.mul_assoc]
  omega

/-! ## C1: BFS finds a shortest path when the goal is reachable -/

/-- C1: on every grid whose goal is reachable from the start through non-wall
cells, runBFS succeeds with a path from the start to the goal along non-wall
orthogonally adjacent cells, the reported pathLength is the edge count of the
path, and that edge count is the least hop count of any walk from start to
goal. -/
theorem c1_bfs_shortest (g : GridCfg) (hv : GValid g)
    (hr : Reachable g g.startC g.goalC) :
    ∃ p s', runBFS g = some (true, p, s') ∧
      p.head? = some g.startC ∧ p.getLast? = some g.goalC ∧
      List.Chain' (Adj g) p ∧ (∀ c ∈ p, g.wall c = false) ∧
      s'.pathLength = p.length - 1 ∧
      IsLeast {n | pathLen g n g.startC g.goalC} (p.length - 1) := by
  obtain ⟨found, p, s', heq, hcore, hpers, hfound, hfalse⟩ :=
    bfsLoop_spec g (bfsFuel g) (initState g) (loopInv_init g hv) (initState_fuel g)
  cases found with
  | false =>
    obtain ⟨-, hq', hloop'⟩ := hfalse rfl
    obtain ⟨n, hpn⟩ := hr
    have hmem := reach_closed g s' hloop' hq' n g.goalC hpn
    have := hloop'.goalQ hmem
    rw [hq'] at this
    simp at this
  | true =>
    obtain ⟨hgmem, hpe, hplen⟩ := hfound rfl
    obtain ⟨dg, hdg, hpg, hlg⟩ := hcore.distLeast g.goalC hgmem
    obtain ⟨h1, h2, h3, h4, h5⟩ := reconstructPath_spec g s' hcore g.goalC hgmem dg hdg
    subst hpe
    have hlen : (reconstructPath s' g.goalC).length - 1 = dg := by omega
    refine ⟨reconstructPath s' g.goalC, s', heq, h1, h2, h3, ?_, hplen, ?_⟩
    · intro c hc
      exact (hcore.vBounds c (h5 c hc)).2.2
    · rw [hlen]
      exact ⟨hpg, hlg⟩

/-- C1 witness: the 5 by 5 empty grid, whose goal is reachable in 4 hops. -/
theorem c1_bfs_shortest_witness :
    GValid g6 ∧ Reachable g6 g6.startC g6.goalC ∧
      (∃ p s', runBFS g6 = some (true, p, s') ∧
        p.head? = some g6.startC ∧ p.getLast? = some g6.goalC ∧
        List.Chain' (Adj g6) p ∧ (∀ c ∈ p, g6.wall c = false) ∧
        s'.pathLength = p.length - 1 ∧
        IsLeast {n | pathLen g6 n g6.startC g6.goalC} (p.length - 1)) :=
  ⟨by decide,
    ⟨4, ⟨(3, 2), ⟨(3, 1), ⟨(2, 1), ⟨(1, 1), rfl, by decide⟩, by decide⟩, by decide⟩, by decide⟩⟩,
    c1_bfs_shortest g6 (by decide)
      ⟨4, ⟨(3, 2), ⟨(3, 1), ⟨(2, 1), ⟨(1, 1), rfl, by decide⟩, by decide⟩, by decide⟩, by decide⟩⟩⟩

/-! ## C4: BFS on a disconnected grid -/

/-- C4: on every grid whose goal is not reachable from the start, runBFS
reports no path with an empty path list, and at termination a cell is in the
visited state exactly when it is reachable from the start. -/
theorem c4_bfs_unreachable (g : GridCfg) (hv : GValid g)
    (hnr : ¬ Reachable g g.startC g.goalC) :
    ∃ s', runBFS g = some (false, [], s') ∧
      ∀ c, (s'.vstate c = VState.visited ↔ Reachable g g.startC c) := by
  obtain ⟨found, p, s', heq, hcore, hpers, hfound, hfalse⟩ :=
    bfsLoop_spec g (bfsFuel g) (initState g) (loopInv_init g hv) (initState_fuel g)
  cases found with
  | true =>
    obtain ⟨hgmem, -, -⟩ := hfound rfl
    obtain ⟨dg, -, hpg, -⟩ := hcore.distLeast g.goalC hgmem
    exact absurd ⟨dg, hpg⟩ hnr
  | false =>
    obtain ⟨hp, hq', hloop'⟩ := hfalse rfl
    subst hp
    refine ⟨s', heq, ?_⟩
    intro c
    constructor
    · intro hvst
      have := hloop'.vchar c
      rw [hvst] at this
      by_cases hc : c ∈ s'.visitedSet
      · obtain ⟨d, -, hpd, -⟩ := hloop'.distLeast c hc
        exact ⟨d, hpd⟩
      · rw [if_neg hc] at this
        exact absurd this (by simp)
    · intro ⟨n, hpn⟩
      have hc := reach_closed g s' hloop' hq' n c hpn
      have := hloop'.vchar c
      rw [if_pos hc, if_neg (by rw [hq']; simp)] at this
      exact this

/-- On the walled-in grid g4 no cell other than the start is reachable. -/
theorem g4_stuck : ∀ n c, pathLen g4 n g4.startC c → c = g4.startC := by
  intro n
  induction n with
  | zero => intro c hp; exact hp.symm
  | succ n ihn =>
    intro c hp
    obtain ⟨c', hp', hadj⟩ := hp
    have hc' := ihn c' hp'
    subst hc'
    have hemp : getNeighbors g4 g4.startC = [] := by decide
    rw [Adj, hemp] at hadj
    simp at hadj

/-- The goal of g4 is unreachable. -/
theorem g4_unreachable : ¬ Reachable g4 g4.startC g4.goalC := by
  intro h
  obtain ⟨n, hp⟩ := h
  have := g4_stuck n g4.goalC hp
  exact absurd this (by decide)

/-- C4 witness: the walled-in 3 by 3 grid. -/
theorem c4_bfs_unreachable_witness :
    GValid g4 ∧ ¬ Reachable g4 g4.startC g4.goalC ∧
      (∃ s', runBFS g4 = some (false, [], s') ∧
        ∀ c, (s'.vstate c = VState.visited ↔ Reachable g4 g4.startC c)) :=
  ⟨by decide, g4_unreachable, c4_bfs_unreachable g4 (by decide) g4_unreachable⟩

/-! ## C5: the distance field -/

/-- C5: distances are never reassigned during the loop (whenever the loop runs
from an invariant state with sufficient fuel, every already assigned distance
survives to the final state unchanged), and in the final state of a full run
the start has distance 0, every other discovered cell has the distance of its
parent plus one, and every cell in the visited state has its assigned
distance equal to the least hop count from the start. -/
theorem c5_bfs_distances (g : GridCfg) (hv : GValid g) :
    (∀ fuel s found p s', LoopInv g s →
      2 * (g.cols * g.rows - s.visitedSet.length) + s.queue.length < fuel →
      bfsLoop g false fuel s = some (found, p, s') →
      ∀ c x, s.dist c = some x → s'.dist c = some x) ∧
    ∃ found p s', runBFS g = some (found, p, s') ∧
      s'.dist g.startC = some 0 ∧
      (∀ c ∈ s'.visitedSet, c ≠ g.startC →
        ∃ q dq, s'.par c = some q ∧ s'.dist q = some dq ∧ s'.dist c = some (dq + 1)) ∧
      (∀ c, s'.vstate c = VState.visited →
        ∃ d, s'.dist c = some d ∧ IsLeast {m | pathLen g m g.startC c} d) := by
  constructor
  · intro fuel s found p s' hs hfm heq
    obtain ⟨found2, p2, s2, heq2, -, hpers2, -, -⟩ := bfsLoop_spec g fuel s hs hfm
    rw [heq] at heq2
    simp only [Option.some_inj, Prod.mk.injEq] at heq2
    obtain ⟨-, -, h3⟩ := heq2
    rw [← h3] at hpers2
    exact hpers2
  · obtain ⟨found, p, s', heq, hcore, hpers, hfound, hfalse⟩ :=
      bfsLoop_spec g (bfsFuel g) (initState g) (loopInv_init g hv) (initState_fuel g)
    refine ⟨found, p, s', heq, hcore.parStart.2, ?_, ?_⟩
    · intro c hc hcs
      obtain ⟨q, dq, h1, _, _, h4, h5⟩ := hcore.parLink c hc hcs
      exact ⟨q, dq, h1, h4, h5⟩
    · intro c hvst
      have hch := hcore.vchar c
      rw [hvst] at hch
      by_cases hc : c ∈ s'.visitedSet
      · obtain ⟨d, hd, hpd, hld⟩ := hcore.distLeast c hc
        exact ⟨d, hd, hpd, hld⟩
      · rw [if_neg hc] at hch
        exact absurd hch (by simp)

/-- C5 witness: the distance facts of the full run on the 5 by 5 grid. -/
theorem c5_bfs_distances_witness :
    GValid g6 ∧
      ((∀ fuel s found p s', LoopInv g6 s →
        2 * (g6.cols * g6.rows - s.visitedSet.length) + s.queue.length < fuel →
        bfsLoop g6 false fuel s = some (found, p, s') →
        ∀ c x, s.dist c = some x → s'.dist c = some x) ∧
      ∃ found p s', runBFS g6 = some (found, p, s') ∧
        s'.dist g6.startC = some 0 ∧
        (∀ c ∈ s'.visitedSet, c ≠ g6.startC →
          ∃ q dq, s'.par c = some q ∧ s'.dist q = some dq ∧ s'.dist c = some (dq + 1)) ∧
        (∀ c, s'.vstate c = VState.visited →
          ∃ d, s'.dist c = some d ∧ IsLeast {m | pathLen g6 m g6.startC c} d)) :=
  ⟨by decide, c5_bfs_distances g6 (by decide)⟩

/-! ## DFS: the run invariant -/

/-! ## DFS: helper lemmas -/

/-- A node of the graph that is unvisited makes the unvisited count
positive. -/
theorem U_pos (g : DGraph) (s : DfsState) (n : Nat) (hn : n ∈ g.nodeIds)
    (hu : s.nstate n = NState.unvisited) : 1 ≤ U g s := by
  have : n ∈ g.nodeIds.filter fun v => s.nstate v = NState.unvisited := by
    simp [List.mem_filter, hn, hu]
  exact List.length_pos_of_mem this

/-- Two states agreeing on which graph nodes are unvisited have the same
unvisited count. -/
theorem U_congr (g : DGraph) (s s' : DfsState)
    (h : ∀ v ∈ g.nodeIds, (s'.nstate v = NState.unvisited ↔ s.nstate v = NState.unvisited)) :
    U g s' = U g s := by
  unfold U
  congr 1
  apply List.filter_congr
  intro v hv
  exact decide_eq_decide.mpr (h v hv)

/-- Removing one element from the satisfying set of a filter over a
duplicate-free list drops the count by one. -/
theorem filter_flip_length {α : Type} (l : List α) (hnd : l.Nodup) (n : α) (hn : n ∈ l)
    (p q : α → Bool) (hpn : p n = true) (hqn : q n = false)
    (hoth : ∀ v, v ≠ n → q v = p v) :
    (l.filter q).length + 1 = (l.filter p).length := by
  induction l with
  | nil => simp at hn
  | cons a l' ihl =>
    obtain ⟨hnotin, hnd'⟩ := List.nodup_cons.mp hnd
    rcases List.mem_cons.mp hn with h | h
    · subst h
      have hq' : l'.filter q = l'.filter p :=
        List.filter_congr fun v hv => hoth v (fun he => hnotin (he ▸ hv))
      simp [List.filter_cons, hpn, hqn, hq']
    · have hane : a ≠ n := fun he => hnotin (he ▸ h)
      have hqa : q a = p a := hoth a hane
      cases hpa : p a with
      | true => simp [List.filter_cons, hpa, hqa, ihl hnd' h]
      | false => simp [List.filter_cons, hpa, hqa, ihl hnd' h]

/-- The one-step unvisited-count drop when a graph node leaves the unvisited
state and nothing else changes state. -/
theorem U_flip (g : DGraph) (s s' : DfsState) (hnd : g.nodeIds.Nodup)
    (n : Nat) (hn : n ∈ g.nodeIds) (hu : s.nstate n = NState.unvisited)
    (hu' : s'.nstate n ≠ NState.unvisited)
    (hoth : ∀ v, v ≠ n → s'.nstate v = s.nstate v) :
    U g s' + 1 = U g s := by
  unfold U
  exact filter_flip_length g.nodeIds hnd n hn _ _
    (by simp [hu]) (by simp [hu']) (fun v hv => by simp [hoth v hv])

/-- StackFrom depends only on the parent values along the chain. -/
theorem stackFrom_parEq (g : DGraph) (s s' : DfsState) :
    ∀ (σ : List Nat) (n : Nat), s'.par n = s.par n → (∀ v ∈ σ, s'.par v = s.par v) →
      StackFrom g s n σ → StackFrom g s' n σ := by
  intro σ
  induction σ with
  | nil => intro n hn _ h; exact hn.trans h
  | cons p rest ihs =>
    intro n hn hσ h
    obtain ⟨h1, h2, h3⟩ := h
    exact ⟨hn.trans h1, h2,
      ihs p (hσ p (by simp)) (fun v hv => hσ v (by simp [hv])) h3⟩

/-- Every node on the parent chain reaches the chain bottom through graph
edges. -/
theorem stackFrom_transGen (g : DGraph) (s : DfsState) :
    ∀ (σ : List Nat) (n : Nat), StackFrom g s n σ →
      ∀ m ∈ σ, Relation.TransGen (EdgeStep g) m n := by
  intro σ
  induction σ with
  | nil => intro n _ m hm; simp at hm
  | cons p rest ihs =>
    intro n h m hm
    obtain ⟨h1, h2, h3⟩ := h
    rcases List.mem_cons.mp hm with he | he
    · subst he
      exact Relation.TransGen.single h2
    · exact Relation.TransGen.tail (ihs p h3 m he) h2

/-- The parent walk of findCycleNodes from n stops exactly at the first
occurrence of m on the chain, collecting n and the part of the chain before
m. -/
theorem parChainTo_stack (g : DGraph) (s : DfsState) :
    ∀ (pre : List Nat) (n m : Nat) (suf : List Nat) (f : Nat),
      StackFrom g s n (pre ++ m :: suf) → n ∉ (pre ++ m :: suf) →
      (pre ++ m :: suf).Nodup → pre.length + 2 ≤ f →
      parChainTo s.par f n m = n :: pre := by
  intro pre
  induction pre with
  | nil =>
    intro n m suf f h hnot hnd hf
    obtain ⟨f', rfl⟩ : ∃ f', f = f' + 1 := ⟨f - 1, by omega⟩
    obtain ⟨h1, -, -⟩ := h
    have hnm : n ≠ m := fun he => hnot (by simp [he])
    obtain ⟨f'', rfl⟩ : ∃ f'', f' = f'' + 1 := ⟨f' - 1, by omega⟩
    rw [parChainTo, if_neg hnm, h1]
    show n :: parChainTo s.par (f'' + 1) m m = [n]
    rw [parChainTo, if_pos rfl]
  | cons p pre' ihp =>
    intro n m suf f h hnot hnd hf
    obtain ⟨f', rfl⟩ : ∃ f', f = f' + 1 := ⟨f - 1, by omega⟩
    obtain ⟨h1, -, h3⟩ := h
    have hnm : n ≠ m := fun he => hnot (by simp [he])
    rw [parChainTo, if_neg hnm, h1]
    have hpnot : p ∉ pre' ++ m :: suf := (List.nodup_cons.mp hnd).1
    have hnd' : (pre' ++ m :: suf).Nodup := (List.nodup_cons.mp hnd).2
    show n :: parChainTo s.par f' p m = n :: p :: pre'
    rw [ihp p m suf f' h3 hpnot hnd' (by simp at hf ⊢; omega)]

/-- The edges along a stack segment: walking the chain from n down to just
above m gives a chain of graph edges ending at n, whose first node is an edge
target of m. -/
theorem stackFrom_edges (g : DGraph) (s : DfsState) :
    ∀ (pre : List Nat) (n m : Nat) (suf : List Nat),
      StackFrom g s n (pre ++ m :: suf) →
      List.Chain' (EdgeStep g) (pre.reverse ++ [n]) ∧
        ∃ h, (pre.reverse ++ [n]).head? = some h ∧ h ∈ g.adj m := by
  intro pre
  induction pre with
  | nil =>
    intro n m suf h
    obtain ⟨-, h2, -⟩ := h
    exact ⟨by simp, n, rfl, h2⟩
  | cons p pre' ihp =>
    intro n m suf h
    obtain ⟨h1, h2, h3⟩ := h
    obtain ⟨hch, hh, hhd, hhm⟩ := ihp p m suf h3
    have hsp : (p :: pre').reverse ++ [n] = (pre'.reverse ++ [p]) ++ [n] := by simp
    rw [hsp]
    constructor
    · rw [List.chain'_append]
      refine ⟨hch, by simp, ?_⟩
      intro x hx y hy
      simp at hy
      subst hy
      rw [List.getLast?_concat] at hx
      simp at hx
      subst hx
      exact h2
    · refine ⟨hh, ?_, hhm⟩
      rw [List.head?_append_of_ne_nil]
      · exact hhd
      · simp

/-- A one-node closed walk from a self-edge. -/
theorem closedWalk_self (g : DGraph) (m : Nat) (h : m ∈ g.adj m) : ClosedWalk g [m] :=
  ⟨by simp, m, m, rfl, rfl, h⟩

/-- The node list assembled from a back edge from n to a chain node m is a
closed walk: tree edges down from m to n, the back edge closing it. -/
theorem closedWalk_stack (g : DGraph) (s : DfsState) (pre : List Nat) (n m : Nat)
    (suf : List Nat) (hsf : StackFrom g s n (pre ++ m :: suf)) (hback : m ∈ g.adj n) :
    ClosedWalk g ((n :: pre).reverse ++ [m]) := by
  obtain ⟨hch, hh, hhd, hhm⟩ := stackFrom_edges g s pre n m suf hsf
  have hrw : (n :: pre).reverse ++ [m] = (pre.reverse ++ [n]) ++ [m] := by simp
  rw [hrw]
  constructor
  · rw [List.chain'_append]
    refine ⟨hch, by simp, ?_⟩
    intro x hx y hy
    simp at hy
    subst hy
    rw [List.getLast?_concat] at hx
    simp at hx
    subst hx
    exact hback
  · refine ⟨hh, m, ?_, by rw [List.getLast?_concat], hhm⟩
    rw [List.head?_append_of_ne_nil]
    · exact hhd
    · simp

/-- findCycleNodes on a self back edge is the one-node list. -/
theorem findCycleNodes_self (g : DGraph) (par : Nat → Option Nat) (m : Nat) :
    findCycleNodes g par m m = [m] := by
  unfold findCycleNodes
  rw [parChainTo, if_pos rfl]
  simp

/-- findCycleNodes on a back edge into the chain collects exactly the chain
segment from the current node up to the target. -/
theorem findCycleNodes_stack (g : DGraph) (s : DfsState) (pre : List Nat) (n m : Nat)
    (suf : List Nat) (hsf : StackFrom g s n (pre ++ m :: suf))
    (hnot : n ∉ pre ++ m :: suf) (hnd : (pre ++ m :: suf).Nodup)
    (hlen : pre.length + 2 ≤ g.nodeIds.length + 1) :
    findCycleNodes g s.par n m = (n :: pre).reverse ++ [m] := by
  unfold findCycleNodes
  rw [parChainTo_stack g s pre n m suf (g.nodeIds.length + 1) hsf hnot hnd hlen]

/-! ## DFS: the two stamps -/

/-- Entering a visit: the invariant survives the discovery stamp, the node
joins the stack, and the unvisited count drops by one. -/
theorem stampDiscover_spec (g : DGraph) (hnd : g.nodeIds.Nodup) (s : DfsState) (n : Nat)
    (σ : List Nat) (hinv : DInv g s) (hn : n ∈ g.nodeIds)
    (hu : s.nstate n = NState.unvisited)
    (hchar : ∀ v, Stacked s v ↔ v ∈ σ) (hsf : StackFrom g s n σ) :
    DInv g (stampDiscover s n) ∧ Stacked (stampDiscover s n) n ∧
      (∀ v, Stacked (stampDiscover s n) v ↔ (v = n ∨ v ∈ σ)) ∧
      StackFrom g (stampDiscover s n) n σ ∧
      U g (stampDiscover s n) + 1 = U g s := by
  have hst : ∀ v, v ≠ n → (stampDiscover s n).nstate v = s.nstate v := fun v hv =>
    upd_ne _ _ _ _ hv
  have hstn : (stampDiscover s n).nstate n = NState.visiting := upd_same _ _ _
  have hdn : (stampDiscover s n).disc n = some (s.time + 1) := upd_same _ _ _
  have hdo : ∀ v, v ≠ n → (stampDiscover s n).disc v = s.disc v := fun v hv =>
    upd_ne _ _ _ _ hv
  refine ⟨?_, ?_, ?_, ?_, ?_⟩
  · refine
      { discLe := ?_
        finLe := ?_
        discInj := ?_
        finInj := ?_
        discFin := ?_
        unvSt := ?_
        stackSt := ?_
        visSt := ?_
        outside := ?_
        cyclesOk := hinv.cyclesOk
        selfLoop := hinv.selfLoop
        countCyc := hinv.countCyc
        countCycles := hinv.countCycles
        backCyc := hinv.backCyc }
    · intro v t hv
      by_cases hvn : v = n
      · subst hvn
        rw [hdn] at hv
        have := Option.some_inj.mp hv
        show 1 ≤ t ∧ t ≤ s.time + 1
        omega
      · rw [hdo v hvn] at hv
        have := hinv.discLe v t hv
        show 1 ≤ t ∧ t ≤ s.time + 1
        omega
    · intro v t hv
      have := hinv.finLe v t hv
      show 1 ≤ t ∧ t ≤ s.time + 1
      omega
    · intro u v t hu' hv'
      by_cases hun : u = n <;> by_cases hvn : v = n
      · rw [hun, hvn]
      · subst hun
        rw [hdn] at hu'
        rw [hdo v hvn] at hv'
        have h1 := Option.some_inj.mp hu'
        have h2 := (hinv.discLe v t hv').2
        omega
      · subst hvn
        rw [hdn] at hv'
        rw [hdo u hun] at hu'
        have h1 := Option.some_inj.mp hv'
        have h2 := (hinv.discLe u t hu').2
        omega
      · rw [hdo u hun] at hu'
        rw [hdo v hvn] at hv'
        exact hinv.discInj u v t hu' hv'
    · exact hinv.finInj
    · intro u v t hu' hv'
      by_cases hun : u = n
      · subst hun
        rw [hdn] at hu'
        have h1 := Option.some_inj.mp hu'
        have h2 := (hinv.finLe v t hv').2
        omega
      · rw [hdo u hun] at hu'
        exact hinv.discFin u v t hu' hv'
    · intro v hv
      have hvn : v ≠ n := by
        intro he
        rw [he, hstn] at hv
        exact absurd hv (by simp)
      rw [hst v hvn] at hv
      obtain ⟨h1, h2⟩ := hinv.unvSt v hv
      exact ⟨by rw [hdo v hvn]; exact h1, h2⟩
    · intro v hv
      by_cases hvn : v = n
      · rw [hvn]
        exact ⟨⟨s.time + 1, hdn⟩, (hinv.unvSt n hu).2⟩
      · have : Stacked s v := by
          unfold Stacked at hv ⊢
          rwa [hst v hvn] at hv
        obtain ⟨⟨d, hd⟩, h2⟩ := hinv.stackSt v this
        exact ⟨⟨d, by rw [hdo v hvn]; exact hd⟩, h2⟩
    · intro v hv
      have hvn : v ≠ n := by
        intro he
        rw [he, hstn] at hv
        exact absurd hv (by simp)
      rw [hst v hvn] at hv
      obtain ⟨d, f, h1, h2, h3⟩ := hinv.visSt v hv
      exact ⟨d, f, by rw [hdo v hvn]; exact h1, h2, h3⟩
    · intro v hv
      have hvn : v ≠ n := fun he => hv (he ▸ hn)
      rw [hst v hvn]
      exact hinv.outside v hv
  · unfold Stacked
    rw [hstn]
    simp
  · intro v
    by_cases hvn : v = n
    · subst hvn
      unfold Stacked
      rw [hstn]
      simp
    · unfold Stacked
      rw [hst v hvn]
      have := hchar v
      unfold Stacked at this
      rw [this]
      simp [hvn]
  · exact stackFrom_parEq g s _ σ n rfl (fun v _ => rfl) hsf
  · exact U_flip g s _ hnd n hn hu (by rw [hstn]; simp) hst

/-- Leaving a visit: the invariant survives the finish stamp, the node leaves
the stack as visited, and all bookkeeping is monotone. -/
theorem stampFinish_spec (g : DGraph) (s2 : DfsState) (n : Nat) (σ : List Nat)
    (hinv : DInv g s2) (hn : n ∈ g.nodeIds) (hns : Stacked s2 n) (hnn : n ∉ σ)
    (hchar : ∀ v, Stacked s2 v ↔ (v = n ∨ v ∈ σ)) :
    DInv g (stampFinish s2 n) ∧ (stampFinish s2 n).nstate n = NState.visited ∧
      (∀ v, Stacked (stampFinish s2 n) v ↔ v ∈ σ) ∧
      U g (stampFinish s2 n) = U g s2 ∧
      (∀ v t, s2.fin v = some t → (stampFinish s2 n).fin v = some t) ∧
      (∀ v, s2.nstate v = NState.visited → (stampFinish s2 n).nstate v = NState.visited) ∧
      (∀ v, (stampFinish s2 n).nstate v = NState.unvisited → s2.nstate v = NState.unvisited) := by
  have hst : ∀ v, v ≠ n → (stampFinish s2 n).nstate v = s2.nstate v := fun v hv =>
    upd_ne _ _ _ _ hv
  have hstn : (stampFinish s2 n).nstate n = NState.visited := upd_same _ _ _
  have hfn : (stampFinish s2 n).fin n = some (s2.time + 1) := upd_same _ _ _
  have hfo : ∀ v, v ≠ n → (stampFinish s2 n).fin v = s2.fin v := fun v hv =>
    upd_ne _ _ _ _ hv
  have hfin2 : s2.fin n = none := (hinv.stackSt n hns).2
  refine ⟨?_, hstn, ?_, ?_, ?_, ?_, ?_⟩
  · refine
      { discLe := ?_
        finLe := ?_
        discInj := hinv.discInj
        finInj := ?_
        discFin := ?_
        unvSt := ?_
        stackSt := ?_
        visSt := ?_
        outside := ?_
        cyclesOk := hinv.cyclesOk
        selfLoop := hinv.selfLoop
        countCyc := hinv.countCyc
        countCycles := hinv.countCycles
        backCyc := hinv.backCyc }
    · intro v t hv
      have := hinv.discLe v t hv
      show 1 ≤ t ∧ t ≤ s2.time + 1
      omega
    · intro v t hv
      by_cases hvn : v = n
      · subst hvn
        rw [hfn] at hv
        have := Option.some_inj.mp hv
        show 1 ≤ t ∧ t ≤ s2.time + 1
        omega
      · rw [hfo v hvn] at hv
        have := hinv.finLe v t hv
        show 1 ≤ t ∧ t ≤ s2.time + 1
        omega
    · intro u v t hu' hv'
      by_cases hun : u = n <;> by_cases hvn : v = n
      · rw [hun, hvn]
      · rw [hun] at hu' ⊢
        rw [hfn] at hu'
        rw [hfo v hvn] at hv'
        have h1 := Option.some_inj.mp hu'
        have h2 := (hinv.finLe v t hv').2
        omega
      · rw [hvn] at hv' ⊢
        rw [hfn] at hv'
        rw [hfo u hun] at hu'
        have h1 := Option.some_inj.mp hv'
        have h2 := (hinv.finLe u t hu').2
        omega
      · rw [hfo u hun] at hu'
        rw [hfo v hvn] at hv'
        exact hinv.finInj u v t hu' hv'
    · intro u v t hu' hv'
      by_cases hvn : v = n
      · rw [hvn, hfn] at hv'
        have h1 := Option.some_inj.mp hv'
        have h2 := (hinv.discLe u t hu').2
        omega
      · rw [hfo v hvn] at hv'
        exact hinv.discFin u v t hu' hv'
    · intro v hv
      have hvn : v ≠ n := by
        intro he
        rw [he, hstn] at hv
        exact absurd hv (by simp)
      rw [hst v hvn] at hv
      obtain ⟨h1, h2⟩ := hinv.unvSt v hv
      exact ⟨h1, by rw [hfo v hvn]; exact h2⟩
    · intro v hv
      have hvn : v ≠ n := by
        intro he
        unfold Stacked at hv
        rw [he, hstn] at hv
        rcases hv with h | h <;> exact absurd h (by simp)
      have : Stacked s2 v := by
        unfold Stacked at hv ⊢
        rwa [hst v hvn] at hv
      obtain ⟨h1, h2⟩ := hinv.stackSt v this
      exact ⟨h1, by rw [hfo v hvn]; exact h2⟩
    · intro v hv
      by_cases hvn : v = n
      · rw [hvn]
        obtain ⟨⟨d, hd⟩, -⟩ := hinv.stackSt n hns
        refine ⟨d, s2.time + 1, hd, hfn, ?_⟩
        have := (hinv.discLe n d hd).2
        omega
      · rw [hst v hvn] at hv
        obtain ⟨d, f, h1, h2, h3⟩ := hinv.visSt v hv
        exact ⟨d, f, h1, by rw [hfo v hvn]; exact h2, h3⟩
    · intro v hv
      have hvn : v ≠ n := fun he => hv (he ▸ hn)
      rw [hst v hvn]
      exact hinv.outside v hv
  · intro v
    by_cases hvn : v = n
    · rw [hvn]
      unfold Stacked
      rw [hstn]
      simp [hnn]
    · unfold Stacked
      rw [hst v hvn]
      have := hchar v
      unfold Stacked at this
      rw [this]
      simp [hvn]
  · apply U_congr
    intro v _
    by_cases hvn : v = n
    · rw [hvn, hstn]
      constructor
      · intro h; exact absurd h (by simp)
      · intro h
        rcases hns with h' | h' <;> rw [h'] at h <;> exact absurd h (by simp)
    · rw [hst v hvn]
  · intro v t hv
    have hvn : v ≠ n := by
      intro he
      rw [he, hfin2] at hv
      exact Option.noConfusion hv
    rw [hfo v hvn]
    exact hv
  · intro v hv
    by_cases hvn : v = n
    · rw [hvn, hstn]
    · rw [hst v hvn]
      exact hv
  · intro v hv
    have hvn : v ≠ n := by
      intro he
      rw [he, hstn] at hv
      exact absurd hv (by simp)
    rwa [hst v hvn] at hv

/-- NbrsPost is reflexive on a well-placed state. -/
theorem nbrsPost_refl (g : DGraph) (s : DfsState) (n : Nat) (σ : List Nat)
    (hinv : DInv g s) (hns : Stacked s n) (hsf : StackFrom g s n σ)
    (hchar : ∀ v, Stacked s v ↔ (v = n ∨ v ∈ σ)) : NbrsPost g s n σ s :=
  { inv := hinv
    nStacked := hns
    stackN := hsf
    stackChar := hchar
    parKeep := fun _ _ => rfl
    visKeep := fun _ h => h
    unvBack := fun _ h => ⟨h, rfl⟩
    uLe := le_refl _
    discKeep := fun _ _ h => h
    finKeep := fun _ _ h => h
    timeLe := le_refl _ }

/-- NbrsPost composes. -/
theorem nbrsPost_trans (g : DGraph) (s t u : DfsState) (n : Nat) (σ : List Nat)
    (h1 : NbrsPost g s n σ t) (h2 : NbrsPost g t n σ u) : NbrsPost g s n σ u :=
  { inv := h2.inv
    nStacked := h2.nStacked
    stackN := h2.stackN
    stackChar := h2.stackChar
    parKeep := fun v hv =>
      (h2.parKeep v (fun hc => hv (h1.unvBack v hc).1)).trans (h1.parKeep v hv)
    visKeep := fun v hv => h2.visKeep v (h1.visKeep v hv)
    unvBack := fun v hv =>
      have hm := h2.unvBack v hv
      have hs := h1.unvBack v hm.1
      ⟨hs.1, hm.2.trans hs.2⟩
    uLe := le_trans h2.uLe h1.uLe
    discKeep := fun v t' h => h2.discKeep v t' (h1.discKeep v t' h)
    finKeep := fun v t' h => h2.finKeep v t' (h1.finKeep v t' h)
    timeLe := le_trans h1.timeLe h2.timeLe }

/-- The node marking of highlightCycle. -/
theorem highlightCycle_nstate (g : DGraph) (s : DfsState) (a b : Nat) :
    (highlightCycle g s a b).nstate =
      fun v => if v ∈ findCycleNodes g s.par a b then NState.cycle else s.nstate v := rfl

/-- The cycle recording of highlightCycle. -/
theorem highlightCycle_cycles (g : DGraph) (s : DfsState) (a b : Nat) :
    (highlightCycle g s a b).cycles = s.cycles ++ [findCycleNodes g s.par a b] := rfl

/-- The visiting-target branch of the neighbor loop: recording the back edge
from n to the stacked node m preserves everything the loop relies on; the
recorded node list is a closed walk, a self back edge records its one-node
cycle, and the counters stay in step. -/
theorem backEdge_spec (g : DGraph) (s : DfsState) (n m : Nat) (σ : List Nat)
    (hinv : DInv g s) (hn : n ∈ g.nodeIds) (hns : Stacked s n)
    (hnd : σ.Nodup) (hnn : n ∉ σ) (hsm : ∀ v ∈ σ, v ∈ g.nodeIds)
    (hsf : StackFrom g s n σ) (hchar : ∀ v, Stacked s v ↔ (v = n ∨ v ∈ σ))
    (hmadj : m ∈ g.adj n) (hmv : s.nstate m = NState.visiting) :
    NbrsPost g s n σ
      { highlightCycle g s n m with
        cycleCount := (highlightCycle g s n m).cycleCount + 1
        backLog := (highlightCycle g s n m).backLog ++ [(n, m)] } := by
  have hmstack : m = n ∨ m ∈ σ := (hchar m).mp (Or.inl hmv)
  -- the recorded node list is a closed walk through stacked nodes
  have hmain : ClosedWalk g (findCycleNodes g s.par n m) ∧
      (∀ v ∈ findCycleNodes g s.par n m, v = n ∨ v ∈ σ) ∧
      (m = n → findCycleNodes g s.par n m = [m]) := by
    rcases hmstack with he | hm
    · subst he
      rw [findCycleNodes_self]
      exact ⟨closedWalk_self g m hmadj, by simp, fun _ => rfl⟩
    · obtain ⟨pre, suf, hps⟩ := List.append_of_mem hm
      have hsf' : StackFrom g s n (pre ++ m :: suf) := hps ▸ hsf
      have hnot : n ∉ pre ++ m :: suf := hps ▸ hnn
      have hnd' : (pre ++ m :: suf).Nodup := hps ▸ hnd
      have hlen : pre.length + 2 ≤ g.nodeIds.length + 1 := by
        have hsp : σ.length ≤ g.nodeIds.length :=
          (List.subperm_of_subset hnd (fun v hv => hsm v hv)).length_le
        have hsl : σ.length = (pre ++ m :: suf).length := by rw [hps]
        rw [List.length_append, List.length_cons] at hsl
        omega
      rw [findCycleNodes_stack g s pre n m suf hsf' hnot hnd' hlen]
      refine ⟨closedWalk_stack g s pre n m suf hsf' hmadj, ?_, ?_⟩
      · intro v hv
        rw [List.mem_append, List.mem_reverse, List.mem_cons] at hv
        rcases hv with (h | h) | h
        · left; exact h
        · right; rw [hps, List.mem_append]; left; exact h
        · right
          rw [List.mem_singleton] at h
          rw [hps, h]
          simp
      · intro he
        exact absurd (he ▸ hm) hnn
  obtain ⟨hcw, hsub, hself⟩ := hmain
  have hstate : ∀ v,
      ({ highlightCycle g s n m with
        cycleCount := (highlightCycle g s n m).cycleCount + 1
        backLog := (highlightCycle g s n m).backLog ++ [(n, m)] } : DfsState).nstate v =
      if v ∈ findCycleNodes g s.par n m then NState.cycle else s.nstate v := fun _ => rfl
  have hstacked : ∀ v,
      Stacked { highlightCycle g s n m with
        cycleCount := (highlightCycle g s n m).cycleCount + 1
        backLog := (highlightCycle g s n m).backLog ++ [(n, m)] } v ↔ Stacked s v := by
    intro v
    unfold Stacked
    rw [hstate v]
    by_cases hvc : v ∈ findCycleNodes g s.par n m
    · simp only [if_pos hvc]
      constructor
      · intro _
        exact (hchar v).mpr (hsub v hvc)
      · intro _
        simp
    · simp only [if_neg hvc]
  refine
    { inv := ?_
      nStacked := (hstacked n).mpr hns
      stackN := stackFrom_parEq g s _ σ n rfl (fun v _ => rfl) hsf
      stackChar := fun v => (hstacked v).trans (hchar v)
      parKeep := fun _ _ => rfl
      visKeep := ?_
      unvBack := ?_
      uLe := ?_
      discKeep := fun _ _ h => h
      finKeep := fun _ _ h => h
      timeLe := le_refl _ }
  · refine
      { discLe := hinv.discLe
        finLe := hinv.finLe
        discInj := hinv.discInj
        finInj := hinv.finInj
        discFin := hinv.discFin
        unvSt := ?_
        stackSt := ?_
        visSt := ?_
        outside := ?_
        cyclesOk := ?_
        selfLoop := ?_
        countCyc := ?_
        countCycles := ?_
        backCyc := ?_ }
    · intro v hv
      rw [hstate v] at hv
      by_cases hvc : v ∈ findCycleNodes g s.par n m
      · rw [if_pos hvc] at hv
        exact absurd hv (by simp)
      · rw [if_neg hvc] at hv
        exact hinv.unvSt v hv
    · intro v hv
      exact hinv.stackSt v ((hstacked v).mp hv)
    · intro v hv
      rw [hstate v] at hv
      by_cases hvc : v ∈ findCycleNodes g s.par n m
      · rw [if_pos hvc] at hv
        exact absurd hv (by simp)
      · rw [if_neg hvc] at hv
        exact hinv.visSt v hv
    · intro v hv
      rw [hstate v]
      have hvc : v ∉ findCycleNodes g s.par n m := by
        intro hc
        rcases hsub v hc with h | h
        · exact hv (h ▸ hn)
        · exact hv (hsm v h)
      rw [if_neg hvc]
      exact hinv.outside v hv
    · intro c hc
      rcases List.mem_append.mp hc with h | h
      · exact hinv.cyclesOk c h
      · rw [List.mem_singleton] at h
        rw [h]
        exact hcw
    · intro v hv
      rcases List.mem_append.mp hv with h | h
      · exact List.mem_append_left _ (hinv.selfLoop v h)
      · rw [List.mem_singleton, Prod.mk.injEq] at h
        obtain ⟨h1, h2⟩ := h
        apply List.mem_append_right
        rw [List.mem_singleton]
        rw [hself (h2.symm.trans h1), h2]
    · show s.cycleCount + 1 = (s.backLog ++ [(n, m)]).length
      rw [List.length_append, hinv.countCyc]
      rfl
    · show (s.cycles ++ [findCycleNodes g s.par n m]).length = (s.backLog ++ [(n, m)]).length
      rw [List.length_append, List.length_append, hinv.countCycles]
      rfl
    · intro pr hpr
      rcases List.mem_append.mp hpr with h | h
      · exact hinv.backCyc pr h
      · rw [List.mem_singleton] at h
        subst h
        show Relation.TransGen (EdgeStep g) m m
        rcases hmstack with he | hm
        · subst he
          exact Relation.TransGen.single hmadj
        · exact Relation.TransGen.tail (stackFrom_transGen g s σ n hsf m hm) hmadj
  · intro v hv
    rw [hstate v]
    have hvc : v ∉ findCycleNodes g s.par n m := by
      intro hc
      have := (hchar v).mpr (hsub v hc)
      unfold Stacked at this
      rcases this with h | h <;> rw [hv] at h <;> exact absurd h (by simp)
    rw [if_neg hvc]
    exact hv
  · intro v hv
    rw [hstate v] at hv
    by_cases hvc : v ∈ findCycleNodes g s.par n m
    · rw [if_pos hvc] at hv
      exact absurd hv (by simp)
    · rw [if_neg hvc] at hv
      exact ⟨hv, rfl⟩
  · apply le_of_eq
    apply U_congr
    intro v _
    rw [hstate v]
    by_cases hvc : v ∈ findCycleNodes g s.par n m
    · rw [if_pos hvc]
      constructor
      · intro h; exact absurd h (by simp)
      · intro h
        have := (hchar v).mpr (hsub v hvc)
        unfold Stacked at this
        rcases this with h' | h' <;> rw [h] at h' <;> exact absurd h' (by simp)
    · rw [if_neg hvc]

/-- A stacked node is not unvisited. -/
theorem stacked_ne_unv (s : DfsState) (v : Nat) (h : Stacked s v) :
    s.nstate v ≠ NState.unvisited := by
  rcases h with h | h <;> rw [h] <;> simp

/-- The invariant ignores the parent map, so it survives setPar. -/
theorem dInv_setPar (g : DGraph) (s : DfsState) (m n : Nat) (hinv : DInv g s) :
    DInv g (setPar s m n) :=
  { discLe := hinv.discLe
    finLe := hinv.finLe
    discInj := hinv.discInj
    finInj := hinv.finInj
    discFin := hinv.discFin
    unvSt := hinv.unvSt
    stackSt := hinv.stackSt
    visSt := hinv.visSt
    outside := hinv.outside
    cyclesOk := hinv.cyclesOk
    selfLoop := hinv.selfLoop
    countCyc := hinv.countCyc
    countCycles := hinv.countCycles
    backCyc := hinv.backCyc }

/-- The unvisited-target branch: a completed nested visit of m (entered right
after its parent assignment) yields the neighbor-loop postcondition for the
calling node n. -/
theorem visitPost_to_nbrs (g : DGraph) (s t : DfsState) (n m : Nat) (σ : List Nat)
    (hmu : s.nstate m = NState.unvisited) (hns : Stacked s n)
    (hsf : StackFrom g s n σ) (hchar : ∀ v, Stacked s v ↔ (v = n ∨ v ∈ σ))
    (hpost : VisitPost g (setPar s m n) m (n :: σ) t) :
    NbrsPost g s n σ t := by
  have hnm : n ≠ m := fun he => stacked_ne_unv s n hns (he ▸ hmu)
  have hparn : t.par n = s.par n := by
    have h := hpost.parKeep n (stacked_ne_unv s n hns)
    rw [h]
    exact upd_ne _ _ _ _ hnm
  refine
    { inv := hpost.inv
      nStacked := (hpost.stackChar n).mpr (by simp)
      stackN := ?_
      stackChar := fun v => (hpost.stackChar v).trans (by simp)
      parKeep := ?_
      visKeep := fun v hv => hpost.visKeep v hv
      unvBack := ?_
      uLe := hpost.uLe
      discKeep := hpost.discKeep
      finKeep := hpost.finKeep
      timeLe := hpost.timeLe }
  · refine stackFrom_parEq g s t σ n hparn ?_ hsf
    intro v hv
    have hvs : Stacked s v := (hchar v).mpr (Or.inr hv)
    have hvm : v ≠ m := fun he => stacked_ne_unv s v hvs (he ▸ hmu)
    have h := hpost.parKeep v (stacked_ne_unv s v hvs)
    rw [h]
    exact upd_ne _ _ _ _ hvm
  · intro v hv
    have hvm : v ≠ m := fun he => hv (he ▸ hmu)
    have h := hpost.parKeep v hv
    rw [h]
    exact upd_ne _ _ _ _ hvm
  · intro v hv
    have hvm : v ≠ m := by
      intro he
      rw [he, hpost.nVisited] at hv
      exact absurd hv (by simp)
    obtain ⟨h1, h2⟩ := hpost.unvBack v hv
    refine ⟨h1, ?_⟩
    rw [h2]
    exact upd_ne _ _ _ _ hvm

/-- One unfolding of the neighbor loop. -/
theorem dfsNbrs_cons (g : DGraph) (visit : DfsState → Nat → DfsState) (n : Nat)
    (s : DfsState) (m : Nat) (ms : List Nat) :
    dfsNbrs g visit n s (m :: ms) =
      dfsNbrs g visit n
        (if s.nstate m = NState.unvisited then visit (setPar s m n) m
         else if s.nstate m = NState.visiting then
           { highlightCycle g s n m with
             cycleCount := (highlightCycle g s n m).cycleCount + 1
             backLog := (highlightCycle g s n m).backLog ++ [(n, m)] }
         else s) ms := rfl

/-- The neighbor loop of a stacked node n, given that nested visits behave as
specified, satisfies the neighbor-loop postcondition. -/
theorem dfsNbrs_spec (g : DGraph) (hg : Gwf g) (fuel : Nat)
    (visit : DfsState → Nat → DfsState)
    (hvisit : ∀ s n σ, VisitPre g s n σ → U g s ≤ fuel → VisitPost g s n σ (visit s n)) :
    ∀ (l : List Nat) (s : DfsState) (n : Nat) (σ : List Nat),
      DInv g s → n ∈ g.nodeIds → Stacked s n → σ.Nodup → n ∉ σ →
      (∀ v ∈ σ, v ∈ g.nodeIds) → StackFrom g s n σ →
      (∀ v, Stacked s v ↔ (v = n ∨ v ∈ σ)) →
      (∀ m ∈ l, m ∈ g.adj n) → U g s ≤ fuel →
      NbrsPost g s n σ (dfsNbrs g visit n s l) := by
  intro l
  induction l with
  | nil =>
    intro s n σ hinv _ hns _ _ _ hsf hchar _ _
    exact nbrsPost_refl g s n σ hinv hns hsf hchar
  | cons m ms ihl =>
    intro s n σ hinv hn hns hnd hnn hsm hsf hchar hadj hU
    rw [dfsNbrs_cons]
    by_cases hmu : s.nstate m = NState.unvisited
    · rw [if_pos hmu]
      have hmn : m ≠ n := fun he => stacked_ne_unv s n hns (he ▸ hmu)
      have hmσ : m ∉ σ := fun hm =>
        stacked_ne_unv s m ((hchar m).mpr (Or.inr hm)) hmu
      have hsfm : StackFrom g (setPar s m n) m (n :: σ) := by
        refine ⟨upd_same _ _ _, hadj m (by simp), ?_⟩
        refine stackFrom_parEq g s _ σ n ?_ ?_ hsf
        · exact upd_ne _ _ _ _ (Ne.symm hmn)
        · intro v hv
          have hvm : v ≠ m := fun he =>
            stacked_ne_unv s v ((hchar v).mpr (Or.inr hv)) (he ▸ hmu)
          exact upd_ne _ _ _ _ hvm
      have hpre : VisitPre g (setPar s m n) m (n :: σ) :=
        { inv := dInv_setPar g s m n hinv
          nMem := hg.2 n hn m (hadj m (by simp))
          nUnv := hmu
          sNodup := List.nodup_cons.mpr ⟨hnn, hnd⟩
          nNot := by
            rw [List.mem_cons]
            push_neg
            exact ⟨hmn, hmσ⟩
          sMem := by
            intro v hv
            rcases List.mem_cons.mp hv with h | h
            · rw [h]; exact hn
            · exact hsm v h
          stackN := hsfm
          stackChar := fun v => (hchar v).trans (by simp) }
      have hpost := hvisit (setPar s m n) m (n :: σ) hpre hU
      have hnb1 : NbrsPost g s n σ (visit (setPar s m n) m) :=
        visitPost_to_nbrs g s _ n m σ hmu hns hsf hchar hpost
      have hnb2 := ihl (visit (setPar s m n) m) n σ hnb1.inv hn hnb1.nStacked hnd hnn hsm
        hnb1.stackN hnb1.stackChar (fun x hx => hadj x (by simp [hx]))
        (le_trans hnb1.uLe hU)
      exact nbrsPost_trans g s _ _ n σ hnb1 hnb2
    · rw [if_neg hmu]
      by_cases hmv : s.nstate m = NState.visiting
      · rw [if_pos hmv]
        have hnb1 := backEdge_spec g s n m σ hinv hn hns hnd hnn hsm hsf hchar
          (hadj m (by simp)) hmv
        have hnb2 := ihl _ n σ hnb1.inv hn hnb1.nStacked hnd hnn hsm
          hnb1.stackN hnb1.stackChar (fun x hx => hadj x (by simp [hx]))
          (le_trans hnb1.uLe hU)
        exact nbrsPost_trans g s _ _ n σ hnb1 hnb2
      · rw [if_neg hmv]
        exact ihl s n σ hinv hn hns hnd hnn hsm hsf hchar
          (fun x hx => hadj x (by simp [hx])) hU

/-- The main specification of dfsVisit: called on an unvisited node with its
parent chain σ and sufficient fuel, it behaves as VisitPost describes. -/
theorem dfsVisit_spec (g : DGraph) (hg : Gwf g) :
    ∀ fuel s n σ, VisitPre g s n σ → U g s ≤ fuel →
      VisitPost g s n σ (dfsVisit g fuel s n) := by
  intro fuel
  induction fuel with
  | zero =>
    intro s n σ hpre hU
    have := U_pos g s n hpre.nMem hpre.nUnv
    omega
  | succ fuel ih =>
    intro s n σ hpre hU
    have hvq : dfsVisit g (fuel + 1) s n =
        stampFinish (dfsNbrs g (dfsVisit g fuel) n (stampDiscover s n) (g.adj n)) n := rfl
    rw [hvq]
    obtain ⟨hinv1, hns1, hchar1, hsf1, hU1⟩ :=
      stampDiscover_spec g hg.1 s n σ hpre.inv hpre.nMem hpre.nUnv hpre.stackChar hpre.stackN
    have hU1' : U g (stampDiscover s n) ≤ fuel := by omega
    have hnb := dfsNbrs_spec g hg fuel (dfsVisit g fuel) ih (g.adj n) (stampDiscover s n) n σ
      hinv1 hpre.nMem hns1 hpre.sNodup hpre.nNot hpre.sMem hsf1 hchar1 (fun x hx => hx) hU1'
    obtain ⟨hinv3, hfin3, hchar3, hU3, hfk3, hvk3, hub3⟩ :=
      stampFinish_spec g (dfsNbrs g (dfsVisit g fuel) n (stampDiscover s n) (g.adj n)) n σ
        hnb.inv hpre.nMem hnb.nStacked hpre.nNot hnb.stackChar
    have hst1 : ∀ v, v ≠ n → (stampDiscover s n).nstate v = s.nstate v := fun v hv =>
      upd_ne _ _ _ _ hv
    have hstn1 : (stampDiscover s n).nstate n = NState.visiting := upd_same _ _ _
    refine
      { inv := hinv3
        nVisited := hfin3
        stackChar := hchar3
        parKeep := ?_
        parN := ?_
        visKeep := ?_
        unvBack := ?_
        uLe := ?_
        discKeep := ?_
        finKeep := ?_
        timeLe := ?_ }
    · intro v hv
      have hv1 : (stampDiscover s n).nstate v ≠ NState.unvisited := by
        by_cases hvn : v = n
        · rw [hvn, hstn1]; simp
        · rw [hst1 v hvn]; exact hv
      exact hnb.parKeep v hv1
    · have hv1 : (stampDiscover s n).nstate n ≠ NState.unvisited := by
        rw [hstn1]; simp
      exact hnb.parKeep n hv1
    · intro v hv
      have hvn : v ≠ n := by
        intro he
        rw [he, hpre.nUnv] at hv
        exact absurd hv (by simp)
      have hv1 : (stampDiscover s n).nstate v = NState.visited := by
        rw [hst1 v hvn]; exact hv
      exact hvk3 v (hnb.visKeep v hv1)
    · intro v hv
      have hv2 := hub3 v hv
      obtain ⟨hv1, hp1⟩ := hnb.unvBack v hv2
      have hvn : v ≠ n := by
        intro he
        rw [he, hstn1] at hv1
        exact absurd hv1 (by simp)
      refine ⟨by rw [← hst1 v hvn]; exact hv1, ?_⟩
      exact hp1
    · rw [hU3]
      have := hnb.uLe
      omega
    · intro v t hv
      by_cases hvn : v = n
      · rw [hvn] at hv
        rw [(hpre.inv.unvSt n hpre.nUnv).1] at hv
        exact Option.noConfusion hv
      · have hv1 : (stampDiscover s n).disc v = some t := by
          show upd s.disc n (some (s.time + 1)) v = some t
          rw [upd_ne _ _ _ _ hvn]
          exact hv
        exact hnb.discKeep v t hv1
    · intro v t hv
      exact hfk3 v t (hnb.finKeep v t hv)
    · exact le_trans (le_trans (Nat.le_succ s.time) hnb.timeLe)
        (Nat.le_succ _)

/-- A node neither stacked nor unvisited is visited. -/
theorem not_stacked_cases (s : DfsState) (v : Nat) (h1 : ¬ Stacked s v)
    (h2 : s.nstate v ≠ NState.unvisited) : s.nstate v = NState.visited := by
  cases h : s.nstate v with
  | unvisited => exact absurd h h2
  | visiting => exact absurd (Or.inl h) h1
  | visited => rfl
  | cycle => exact absurd (Or.inr h) h1

/-- The initial state satisfies the top-level invariant. -/
theorem topInv_init (g : DGraph) : TopInv g initDfs := by
  refine
    { inv :=
        { discLe := fun v t hv => Option.noConfusion hv
          finLe := fun v t hv => Option.noConfusion hv
          discInj := fun u v t hu => absurd hu (by simp [initDfs])
          finInj := fun u v t hu => absurd hu (by simp [initDfs])
          discFin := fun u v t hu => absurd hu (by simp [initDfs])
          unvSt := fun v _ => ⟨rfl, rfl⟩
          stackSt := fun v hv => ?_
          visSt := fun v hv => absurd hv (by simp [initDfs])
          outside := fun v _ => rfl
          cyclesOk := by simp [initDfs]
          selfLoop := by simp [initDfs]
          countCyc := rfl
          countCycles := rfl
          backCyc := by simp [initDfs] }
      noStack := fun v hv => ?_
      unvPar := fun v _ => rfl }
  · rcases hv with h | h <;> exact absurd h (by simp [initDfs])
  · rcases hv with h | h <;> exact absurd h (by simp [initDfs])

/-- The root loop of runDFS: starting from any stack-free invariant state, it
preserves the invariant and leaves every processed node (and every node
already visited) in the visited state. -/
theorem runDFS_fold (g : DGraph) (hg : Gwf g) :
    ∀ (l : List Nat) (s : DfsState), (∀ v ∈ l, v ∈ g.nodeIds) → TopInv g s →
      TopInv g (l.foldl
        (fun s n => if s.nstate n = NState.unvisited then dfsVisit g (dfsFuel g) s n else s) s) ∧
      (∀ v ∈ l, (l.foldl
        (fun s n => if s.nstate n = NState.unvisited then dfsVisit g (dfsFuel g) s n else s)
          s).nstate v = NState.visited) ∧
      (∀ v, s.nstate v = NState.visited → (l.foldl
        (fun s n => if s.nstate n = NState.unvisited then dfsVisit g (dfsFuel g) s n else s)
          s).nstate v = NState.visited) := by
  intro l
  induction l with
  | nil => exact fun s _ htop => ⟨htop, by simp, fun v hv => hv⟩
  | cons n l' ihl =>
    intro s hl htop
    rw [List.foldl_cons]
    by_cases hnu : s.nstate n = NState.unvisited
    · rw [if_pos hnu]
      have hU : U g s ≤ dfsFuel g := by
        have h := List.length_filter_le
          (fun v => decide (s.nstate v = NState.unvisited)) g.nodeIds
        unfold U dfsFuel
        omega
      have hpre : VisitPre g s n [] :=
        { inv := htop.inv
          nMem := hl n (by simp)
          nUnv := hnu
          sNodup := by simp
          nNot := by simp
          sMem := by simp
          stackN := htop.unvPar n hnu
          stackChar := fun v =>
            ⟨fun hv => absurd hv (htop.noStack v), fun hv => absurd hv (by simp)⟩ }
      have hpost := dfsVisit_spec g hg (dfsFuel g) s n [] hpre hU
      have htop' : TopInv g (dfsVisit g (dfsFuel g) s n) :=
        { inv := hpost.inv
          noStack := fun v hv => by
            have := (hpost.stackChar v).mp hv
            simp at this
          unvPar := fun v hv => by
            obtain ⟨h1, h2⟩ := hpost.unvBack v hv
            rw [h2]
            exact htop.unvPar v h1 }
      obtain ⟨hti, hvl, hvk⟩ := ihl (dfsVisit g (dfsFuel g) s n)
        (fun v hv => hl v (by simp [hv])) htop'
      refine ⟨hti, ?_, ?_⟩
      · intro v hv
        rcases List.mem_cons.mp hv with h | h
        · rw [h]
          exact hvk n hpost.nVisited
        · exact hvl v h
      · intro v hv
        exact hvk v (hpost.visKeep v hv)
    · rw [if_neg hnu]
      obtain ⟨hti, hvl, hvk⟩ := ihl s (fun v hv => hl v (by simp [hv])) htop
      refine ⟨hti, ?_, hvk⟩
      intro v hv
      rcases List.mem_cons.mp hv with h | h
      · rw [h]
        exact hvk n (not_stacked_cases s n (htop.noStack n) hnu)
      · exact hvl v h

/-- After a full uninterrupted run, the invariant holds, the stack is empty,
and every node of the graph is visited. -/
theorem runDFS_top (g : DGraph) (hg : Gwf g) :
    TopInv g (runDFS g) ∧ ∀ v ∈ g.nodeIds, (runDFS g).nstate v = NState.visited := by
  obtain ⟨h1, h2, -⟩ :=
    runDFS_fold g hg g.nodeIds initDfs (fun v hv => hv) (topInv_init g)
  exact ⟨h1, h2⟩

/-! ## C10: no node retains the cycle state -/

/-- C10: after a complete uninterrupted DFS run, no node retains the cycle
state: every node marked during cycle highlighting lies on the recursion
stack and is overwritten to visited when its visit finishes. -/
theorem c10_no_cycle_state (g : DGraph) (hg : Gwf g) :
    ∀ v, (runDFS g).nstate v ≠ NState.cycle := by
  intro v hc
  exact (runDFS_top g hg).1.noStack v (Or.inr hc)

/-- C10 witness: the cyclic two-node graph with a self-loop, on which cycle
highlighting does fire. -/
theorem c10_no_cycle_state_witness :
    Gwf gC9 ∧ (runDFS gC9).nstate 0 ≠ NState.cycle :=
  ⟨by decide, c10_no_cycle_state gC9 (by decide) 0⟩

/-! ## C3: recorded cycles are closed walks -/

/-- C3: whenever the traversal encountered at least one back edge (an edge
whose target was in the visiting state when examined, as logged in backLog),
at least one cycle is recorded, and every recorded cycle is a closed walk:
consecutive nodes, including the wrap-around from last to first, are joined
by edges of the graph. -/
theorem c3_cycles_closed (g : DGraph) (hg : Gwf g) (hb : (runDFS g).backLog ≠ []) :
    (runDFS g).cycles ≠ [] ∧ ∀ c ∈ (runDFS g).cycles, ClosedWalk g c := by
  have hinv := (runDFS_top g hg).1.inv
  refine ⟨?_, hinv.cyclesOk⟩
  intro hc
  have h := hinv.countCycles
  rw [hc] at h
  exact hb (List.eq_nil_of_length_eq_zero h.symm)

/-- C3 witness: the directed triangle, whose run logs one back edge. -/
theorem c3_cycles_closed_witness :
    Gwf gTri ∧ (runDFS gTri).backLog ≠ [] ∧
      ((runDFS gTri).cycles ≠ [] ∧ ∀ c ∈ (runDFS gTri).cycles, ClosedWalk gTri c) :=
  ⟨by decide, by decide, c3_cycles_closed gTri (by decide) (by decide)⟩

/-! ## C9: self-loops -/

/-- C9 counterexample: in gC9 node 0 carries a self-loop, yet the run records
only the two-node cycle: the back edge 1 to 0 re-marks node 0 with the cycle
state before the self-loop of 0 is examined, so the self-loop target is not
in the visiting state and no one-node cycle is recorded. -/
theorem c9_self_loop_counterexample :
    (0 ∈ gC9.adj 0) ∧ (runDFS gC9).cycles = [[1, 0]] ∧ [0] ∉ (runDFS gC9).cycles := by
  refine ⟨by decide, by decide, by decide⟩

/-- C9 (amended): whenever the run examines a self-edge while its node is
still in the visiting state (logged as a back edge (v, v)), it records the
one-node cycle consisting of that node alone. -/
theorem c9_self_loop (g : DGraph) (hg : Gwf g) (v : Nat)
    (h : (v, v) ∈ (runDFS g).backLog) : [v] ∈ (runDFS g).cycles :=
  (runDFS_top g hg).1.inv.selfLoop v h

/-- C9 witness: the one-node graph with a self-loop records its one-node
cycle. -/
theorem c9_self_loop_witness :
    Gwf gSelf ∧ ((0, 0) ∈ (runDFS gSelf).backLog) ∧ [0] ∈ (runDFS gSelf).cycles :=
  ⟨by decide, by decide, c9_self_loop gSelf (by decide) 0 (by decide)⟩

/-! ## C2: acyclic graphs -/

/-- C2: on every acyclic directed graph a complete uninterrupted run finishes
with every node visited, no cycles recorded (empty cycles list and zero
cycleCount), every node stamped with a discovery time strictly below its
finish time, and all timestamps distinct values drawn from the single
monotone counter (each between 1 and the final counter value). -/
theorem c2_dfs_acyclic (g : DGraph) (hg : Gwf g) (ha : Acyclic g) :
    (∀ v ∈ g.nodeIds, (runDFS g).nstate v = NState.visited) ∧
      (runDFS g).cycles = [] ∧ (runDFS g).cycleCount = 0 ∧
      (∀ v ∈ g.nodeIds, ∃ d f, (runDFS g).disc v = some d ∧
        (runDFS g).fin v = some f ∧ d < f) ∧
      (allStamps g (runDFS g)).Nodup ∧
      (∀ t ∈ allStamps g (runDFS g), 1 ≤ t ∧ t ≤ (runDFS g).time) := by
  obtain ⟨htop, hall⟩ := runDFS_top g hg
  have hbl : (runDFS g).backLog = [] := by
    cases hbe : (runDFS g).backLog with
    | nil => rfl
    | cons pr rest =>
      have h := htop.inv.backCyc pr (by rw [hbe]; simp)
      exact absurd h (ha pr.2)
  refine ⟨hall, ?_, ?_, ?_, ?_, ?_⟩
  · apply List.eq_nil_of_length_eq_zero
    rw [htop.inv.countCycles, hbl]
    rfl
  · rw [htop.inv.countCyc, hbl]
    rfl
  · intro v hv
    exact htop.inv.visSt v (hall v hv)
  · unfold allStamps
    rw [List.nodup_append]
    refine ⟨?_, ?_, ?_⟩
    · exact List.Nodup.filterMap
        (fun a a' b hb hb' => htop.inv.discInj a a' b hb hb') hg.1
    · exact List.Nodup.filterMap
        (fun a a' b hb hb' => htop.inv.finInj a a' b hb hb') hg.1
    · intro x hx hx'
      obtain ⟨u, -, hu⟩ := List.mem_filterMap.mp hx
      obtain ⟨v, -, hv⟩ := List.mem_filterMap.mp hx'
      exact htop.inv.discFin u v x hu hv
  · intro t ht
    unfold allStamps at ht
    rcases List.mem_append.mp ht with h | h
    · obtain ⟨u, -, hu⟩ := List.mem_filterMap.mp h
      exact htop.inv.discLe u t hu
    · obtain ⟨u, -, hu⟩ := List.mem_filterMap.mp h
      exact htop.inv.finLe u t hu

/-- Every edge of gAcy goes to a strictly larger node id. -/
theorem gAcy_edge_lt : ∀ a b : Nat, EdgeStep gAcy a b → a < b := by
  intro a b h
  unfold EdgeStep at h
  simp only [gAcy] at h
  by_cases h0 : a = 0
  · rw [if_pos h0] at h
    simp at h
    rcases h with h | h <;> omega
  · rw [if_neg h0] at h
    by_cases h1 : a = 1
    · rw [if_pos h1] at h
      simp at h
      omega
    · rw [if_neg h1] at h
      simp at h

/-- gAcy has no directed cycle. -/
theorem gAcy_acyclic : Acyclic gAcy := by
  intro v h
  have hlt : ∀ a b : Nat, Relation.TransGen (EdgeStep gAcy) a b → a < b := by
    intro a b hab
    induction hab with
    | single h' => exact gAcy_edge_lt _ _ h'
    | tail _ h2 ih => exact lt_trans ih (gAcy_edge_lt _ _ h2)
  exact absurd (hlt v v h) (lt_irrefl v)

/-- C2 witness: the three-node acyclic graph. -/
theorem c2_dfs_acyclic_witness :
    Gwf gAcy ∧ Acyclic gAcy ∧
      ((∀ v ∈ gAcy.nodeIds, (runDFS gAcy).nstate v = NState.visited) ∧
        (runDFS gAcy).cycles = [] ∧ (runDFS gAcy).cycleCount = 0 ∧
        (∀ v ∈ gAcy.nodeIds, ∃ d f, (runDFS gAcy).disc v = some d ∧
          (runDFS gAcy).fin v = some f ∧ d < f) ∧
        (allStamps gAcy (runDFS gAcy)).Nodup ∧
        (∀ t ∈ allStamps gAcy (runDFS gAcy), 1 ≤ t ∧ t ≤ (runDFS gAcy).time)) :=
  ⟨by decide, gAcy_acyclic, c2_dfs_acyclic gAcy (by decide) gAcy_acyclic⟩
